import Mathlib

/-!
Verification of the Java class collector (`src/python/java/java-class-with-imports.py`).

The development shallowly embeds the program:

* the file system is a finite association list from path strings to file
  outcomes (`readable` text, or existing-but-`unreadable`);
* the regex landmark extraction of `parse_java_file` is embedded as
  deterministic character scanners (the four patterns involved are
  backtracking-free, so leftmost-match scanning is an exact model);
* the recursive `collect_classes` walk is embedded with an explicit fuel
  parameter (Lean requires totality); the fuel is instantiated with a bound
  computed from the finite set of import strings occurring in the file
  system, and fuel-insensitivity above that bound is proved;
* warnings printed by the Python code are modelled as an explicit
  diagnostic list threaded through the computation;
* `write_to_file_and_console` is embedded as a pure function producing the
  text written to both sinks.

Path handling is instantiated at POSIX separators (`os.sep = '/'`,
`os.path.join a b = a ++ "/" ++ b` for a relative second component).
-/

namespace JavaCollect

/-- Python regex `\s` character class (ASCII range): space, tab, newline,
carriage return, vertical tab, form feed. -/
def isPySpace (c : Char) : Bool :=
  c = ' ' || c = '\t' || c = '\n' || c = '\r' || c = '\x0b' || c = '\x0c'

/-- Python regex `\w` character class (ASCII range): letters, digits,
underscore. -/
def isWordChar (c : Char) : Bool :=
  c.isAlpha || c.isDigit || c = '_'

/-- The character class `[\w\.]` used by the package and import patterns. -/
def isWordDot (c : Char) : Bool :=
  isWordChar c || c = '.'

/-- `strPrefixOf p l` holds when the character list `p` is a prefix of `l`.
Models Python `str.startswith` (argument order: the prefix first). -/
def strPrefixOf : List Char → List Char → Bool
  | [], _ => true
  | _ :: _, [] => false
  | a :: as, b :: bs => a = b && strPrefixOf as bs

/-- Python `s.startswith(pre)`. -/
def pyStartsWith (s pre : String) : Bool :=
  strPrefixOf pre.data s.data

/-- Consume an exact literal from the front of the input; on success return
the rest.  Models a literal fragment of a regex. -/
def eatLit : List Char → List Char → Option (List Char)
  | [], cs => some cs
  | _ :: _, [] => none
  | l :: ls, c :: cs => if c = l then eatLit ls cs else none

/-- Consume `\s+` (greedy, at least one character); return the consumed
characters and the rest.  Greediness is exact here because in every pattern
of the source the following regex element cannot match a `\s` character. -/
def eatSpaces1 : List Char → Option (List Char × List Char)
  | [] => none
  | c :: cs =>
    if isPySpace c then some (c :: cs.takeWhile isPySpace, cs.dropWhile isPySpace)
    else none

/-- Consume `\w+` (greedy, at least one character). -/
def eatWord1 : List Char → Option (List Char × List Char)
  | [] => none
  | c :: cs =>
    if isWordChar c then some (c :: cs.takeWhile isWordChar, cs.dropWhile isWordChar)
    else none

/-- Consume `[\w\.]+` (greedy, at least one character). -/
def eatWordDot1 : List Char → Option (List Char × List Char)
  | [] => none
  | c :: cs =>
    if isWordDot c then some (c :: cs.takeWhile isWordDot, cs.dropWhile isWordDot)
    else none

/-- The characters of the literal `public`. -/
def pubChars : List Char := ['p', 'u', 'b', 'l', 'i', 'c']

/-- The characters of the literal `class`. -/
def clsChars : List Char := ['c', 'l', 'a', 's', 's']

/-- The characters of the literal `import`. -/
def impChars : List Char := ['i', 'm', 'p', 'o', 'r', 't']

/-- The characters of the literal `package`. -/
def pkgChars : List Char := ['p', 'a', 'c', 'k', 'a', 'g', 'e']

/-- The lookahead `(?=public\s+class)` of the class-code pattern: test
whether `public`, one or more spaces, `class` match at the current
position. -/
def pubClassLookahead (cs : List Char) : Bool :=
  match eatLit pubChars cs with
  | none => false
  | some r1 =>
    match eatSpaces1 r1 with
    | none => false
    | some (_, r2) => (eatLit clsChars r2).isSome

/-- Match `public\s+class\s+\w+` at the current position; on success return
the matched characters and the rest. -/
def pubClassHeadMatch (cs : List Char) : Option (List Char × List Char) :=
  match eatLit pubChars cs with
  | none => none
  | some r1 =>
    match eatSpaces1 r1 with
    | none => none
    | some (s1, r2) =>
      match eatLit clsChars r2 with
      | none => none
      | some r3 =>
        match eatSpaces1 r3 with
        | none => none
        | some (s2, r4) =>
          match eatWord1 r4 with
          | none => none
          | some (w, r5) =>
            some (pubChars ++ s1 ++ clsChars ++ s2 ++ w, r5)

/-- The lazy tail `[\s\S]*?` of the class-code pattern: consume characters
until the lookahead `public\s+class` matches or the input ends; return the
consumed characters and the rest. -/
def lazyBody : List Char → List Char × List Char
  | [] => ([], [])
  | c :: cs =>
    if pubClassLookahead (c :: cs) then ([], c :: cs)
    else
      let p := lazyBody cs
      (c :: p.1, p.2)

/-- Match the full class-code pattern
`(public\s+class\s+\w+[\s\S]*?)(?=public\s+class|\Z)` at the current
position; on success return the captured group and the rest. -/
def classCodeAt (cs : List Char) : Option (List Char × List Char) :=
  match pubClassHeadMatch cs with
  | none => none
  | some (h, rest) =>
    let p := lazyBody rest
    some (h ++ p.1, p.2)

/-- Leftmost match of the class-code pattern: try every position in order.
Models `class_code_pattern.findall(content)[0]` (only the first match is
ever used by the source). -/
def classCodeScan : List Char → Option (List Char × List Char)
  | [] => none
  | c :: cs =>
    match classCodeAt (c :: cs) with
    | some p => some p
    | none => classCodeScan cs

/-- `class_code_pattern` applied to the whole content, first capture. -/
def findClassCode (s : String) : Option String :=
  (classCodeScan s.data).map (fun p => ⟨p.1⟩)

/-- Match `\s*public\s+class\s+(\w+)` at an anchored position (the `^` of
the MULTILINE class pattern); return the captured group. -/
def classNameMatchAt (cs : List Char) : Option String :=
  match eatLit pubChars (cs.dropWhile isPySpace) with
  | none => none
  | some r1 =>
    match eatSpaces1 r1 with
    | none => none
    | some (_, r2) =>
      match eatLit clsChars r2 with
      | none => none
      | some r3 =>
        match eatSpaces1 r3 with
        | none => none
        | some (_, r4) =>
          match eatWord1 r4 with
          | none => none
          | some (w, _) => some ⟨w⟩

/-- Scan for the first anchored match of the class pattern.  The boolean
records whether the current position is a line start (position 0 or right
after a newline), where MULTILINE `^` matches. -/
def classNameScanAux : Bool → List Char → Option String
  | _, [] => none
  | lineStart, c :: cs =>
    if lineStart then
      match classNameMatchAt (c :: cs) with
      | some g => some g
      | none => classNameScanAux (c = '\n') cs
    else classNameScanAux (c = '\n') cs

/-- `class_pattern.search(content)`: first match of
`^\s*public\s+class\s+(\w+)` (MULTILINE). -/
def searchClassName (s : String) : Option String :=
  classNameScanAux true s.data

/-- Match `\s*package\s+([\w\.]+);` at an anchored position. -/
def packageMatchAt (cs : List Char) : Option String :=
  match eatLit pkgChars (cs.dropWhile isPySpace) with
  | none => none
  | some r1 =>
    match eatSpaces1 r1 with
    | none => none
    | some (_, r2) =>
      match eatWordDot1 r2 with
      | none => none
      | some (g, r3) =>
        match r3 with
        | ';' :: _ => some ⟨g⟩
        | _ => none

/-- Scan for the first anchored match of the package pattern. -/
def packageScanAux : Bool → List Char → Option String
  | _, [] => none
  | lineStart, c :: cs =>
    if lineStart then
      match packageMatchAt (c :: cs) with
      | some g => some g
      | none => packageScanAux (c = '\n') cs
    else packageScanAux (c = '\n') cs

/-- `package_pattern.search(content)`: first match of
`^\s*package\s+([\w\.]+);` (MULTILINE). -/
def searchPackage (s : String) : Option String :=
  packageScanAux true s.data

/-- Match `\s*import\s+([\w\.]+);` at an anchored position; return the
captured group and the rest of the input after the match. -/
def importMatchAt (cs : List Char) : Option (String × List Char) :=
  match eatLit impChars (cs.dropWhile isPySpace) with
  | none => none
  | some r1 =>
    match eatSpaces1 r1 with
    | none => none
    | some (_, r2) =>
      match eatWordDot1 r2 with
      | none => none
      | some (g, r3) =>
        match r3 with
        | ';' :: r4 => some (⟨g⟩, r4)
        | _ => none

/-- Scan for all anchored, non-overlapping matches of the import pattern,
resuming after each match as `re.findall` does.  The fuel argument only
serves Lean's termination checker: every step consumes at least one input
character, so `length + 1` fuel is never exhausted. -/
def importScanAux : Nat → Bool → List Char → List String
  | 0, _, _ => []
  | _ + 1, _, [] => []
  | fuel + 1, lineStart, c :: cs =>
    if lineStart then
      match importMatchAt (c :: cs) with
      | some (g, rest) => g :: importScanAux fuel false rest
      | none => importScanAux fuel (c = '\n') cs
    else importScanAux fuel (c = '\n') cs

/-- `import_pattern.findall(content)`: all matches of
`^\s*import\s+([\w\.]+);` (MULTILINE), in file order. -/
def findImports (s : String) : List String :=
  importScanAux (s.data.length + 1) true s.data

/-- Outcome of opening a file that exists: its decoded text, or an
`IOError`/`UnicodeDecodeError` on read. -/
inductive FileOutcome
  | unreadable
  | readable (content : String)
deriving DecidableEq

/-- The file system: a finite map from path strings to file outcomes.
A path absent from the list does not exist (`os.path.isfile` is false). -/
abbrev FS := List (String × FileOutcome)

/-- First-match lookup of a path in the file system. -/
def fsLookup : FS → String → Option FileOutcome
  | [], _ => none
  | (p, o) :: rest, q => if p = q then some o else fsLookup rest q

/-- `os.path.isfile` on a candidate path. -/
def isfile (fs : FS) (p : String) : Bool :=
  (fsLookup fs p).isSome

/-- The four values extracted by `parse_java_file`. -/
structure Parsed where
  packageName : Option String
  imports : List String
  className : Option String
  classCode : String
deriving DecidableEq

/-- Warnings printed by the program, modelled as data. -/
inductive Diag
  | readError (path : String)
  | missingFile (ident : String)
  | nameMismatch (ident : String)
deriving DecidableEq

/-- `parse_java_file(file_path)` on the outcome of opening `file_path`:
on a read/decode error every field keeps its initial empty value and an
error line is printed; otherwise the four regex extractions run on the
decoded content. -/
def parseJavaFile (filePath : String) (o : FileOutcome) : Parsed × List Diag :=
  match o with
  | FileOutcome.unreadable => (⟨none, [], none, ""⟩, [Diag.readError filePath])
  | FileOutcome.readable content =>
    (⟨searchPackage content, findImports content, searchClassName content,
      (findClassCode content).getD ""⟩, [])

/-- `full_class_name.replace('.', os.sep) + '.java'` joined under
`source_dir` (POSIX instantiation of `os.sep`/`os.path.join`). -/
def resolvePath (sourceDir ident : String) : String :=
  sourceDir ++ "/" ++ (⟨ident.data.map (fun c => if c = '.' then '/' else c)⟩ : String) ++ ".java"

/-- `is_project_import(import_statement, source_dir)`: the corresponding
class file exists. -/
def isProjectImport (fs : FS) (sourceDir imp : String) : Bool :=
  isfile fs (resolvePath sourceDir imp)

/-- The skip condition of the import loop of `collect_classes`:
`imp.startswith("static ") or imp.startswith("java.") or imp.startswith("javax.")`. -/
def skipImport (imp : String) : Bool :=
  pyStartsWith imp ("static ") || pyStartsWith imp ("java.") || pyStartsWith imp ("javax.")

/-- Python `s.split(sep)` for a one-character separator. -/
def splitCh (sep : Char) : List Char → List (List Char)
  | [] => [[]]
  | c :: cs =>
    if c = sep then [] :: splitCh sep cs
    else
      match splitCh sep cs with
      | [] => [[c]]
      | g :: gs => (c :: g) :: gs

/-- `full_class_name.split('.')[-1]`: the last dot-separated segment. -/
def lastSegment (s : String) : String :=
  ⟨(splitCh '.' s.data).getLastD []⟩

/-- First-match lookup in the collected association list (Python `dict`
membership and indexing; the keys of a Python dict are unique). -/
def lookupA : List (String × String) → String → Option String
  | [], _ => none
  | (k, v) :: rest, key => if k = key then some v else lookupA rest key

/-- The keys of the collected map, in insertion order. -/
def keysOf (c : List (String × String)) : List String :=
  c.map Prod.fst

/-- State threaded through the walk: the insertion-ordered collected map
and the accumulated diagnostics. -/
abbrev CState := List (String × String) × List Diag

/-- One fueled unfolding of `collect_classes(full_class_name, source_dir,
collected)`.  The fuel parameter only serves Lean's totality requirement;
the memoisation argument of the source guarantees the recursion needs only
boundedly many nested calls, and `collectFuel_stable` below proves the
result is fuel-insensitive above that bound. -/
def collectFuel (fs : FS) (sourceDir : String) :
    Nat → String → CState → CState
  | 0, _, st => st
  | fuel + 1, fullClassName, st =>
    if (lookupA st.1 fullClassName).isSome then st
    else
      let filePath := resolvePath sourceDir fullClassName
      match fsLookup fs filePath with
      | none => (st.1, st.2 ++ [Diag.missingFile fullClassName])
      | some outcome =>
        let pr := parseJavaFile filePath outcome
        if pr.1.className ≠ some (lastSegment fullClassName) then
          (st.1, st.2 ++ pr.2 ++ [Diag.nameMismatch fullClassName])
        else
          let st1 := (st.1 ++ [(fullClassName, pr.1.classCode)], st.2 ++ pr.2)
          pr.1.imports.foldl
            (fun acc imp =>
              if skipImport imp then acc
              else if isProjectImport fs sourceDir imp then
                collectFuel fs sourceDir fuel imp acc
              else acc)
            st1

/-- All import strings extracted from any file of the file system: every
identifier `collect_classes` is ever recursively invoked on is drawn from
this list (or is the root). -/
def allImports (fs : FS) : List String :=
  fs.flatMap (fun e => (parseJavaFile e.1 e.2).1.imports)

/-- The identifiers that can ever become keys during a run rooted at
`root`. -/
def identUniverse (fs : FS) (root : String) : List String :=
  root :: allImports fs

/-- The number of universe identifiers not yet collected: the termination
measure of the memoised walk. -/
def countMissing (univ : List String) (c : List (String × String)) : Nat :=
  (univ.dedup.filter (fun x => (lookupA c x).isNone)).length

/-- `collect_classes(full_class_name, source_dir)` with the default empty
`collected`, instantiated with sufficient fuel. -/
def collect_classes (fs : FS) (sourceDir fullClassName : String) : CState :=
  collectFuel fs sourceDir
    (countMissing (identUniverse fs fullClassName) [] + 1)
    fullClassName ([], [])

/-- Python `s.strip()`. -/
def pyStrip (s : String) : String :=
  ⟨((s.data.dropWhile isPySpace).reverse.dropWhile isPySpace).reverse⟩

/-- Concatenation of a list of strings (the sequence of `f.write`/`print`
calls of a loop). -/
def concatStrings (ss : List String) : String :=
  ⟨(ss.map String.data).flatten⟩

/-- The text produced by `write_to_file_and_console(collected_classes,
output_path, parent_class_name)` (written identically to the file and to
the console; the trailing success message goes to the console only and is
not part of the artifact). -/
def render (collected : List (String × String)) (parent : String) : String :=
  let header := ("------------<") ++ parent ++ (".class>----------") ++ ("\n")
  let parentSec :=
    match lookupA collected parent with
    | some code =>
      ("// Parent class\n") ++
        concatStrings (((splitCh '\n' (pyStrip code).data).map
          (fun line => (⟨line⟩ : String) ++ ("\n"))))
    | none =>
      ("Warning: Parent class \x27") ++ parent ++
        ("\x27 not found in collected classes.\n")
  let imported := collected.filter (fun kv => kv.1 ≠ parent)
  let importedSec :=
    if imported.isEmpty then ("// No imported classes found.\n")
    else
      ("// Imported classes\n") ++
        concatStrings (imported.map (fun kv => kv.2 ++ ("\n") ++ ("\n")))
  header ++ parentSec ++ importedSec ++ ("----------------------------------------\n")

/-! ### Lookup and key lemmas -/

theorem lookupA_append_some {a : List (String × String)} {k v} (b : List (String × String))
    (h : lookupA a k = some v) : lookupA (a ++ b) k = some v := by
  induction a with
  | nil => simp [lookupA] at h
  | cons kv rest ih =>
    obtain ⟨k', v'⟩ := kv
    by_cases hk : k' = k
    · simpa [lookupA, hk] using h
    · simp [lookupA, hk] at h ⊢
      exact ih h

theorem lookupA_append_none {a : List (String × String)} {k} (b : List (String × String))
    (h : lookupA a k = none) : lookupA (a ++ b) k = lookupA b k := by
  induction a with
  | nil => simp [lookupA]
  | cons kv rest ih =>
    obtain ⟨k', v'⟩ := kv
    by_cases hk : k' = k
    · simp [lookupA, hk] at h
    · simp [lookupA, hk] at h ⊢
      exact ih h

theorem keysOf_cons (kv : String × String) (rest : List (String × String)) :
    keysOf (kv :: rest) = kv.1 :: keysOf rest := rfl

theorem mem_keysOf_iff_lookupA {c : List (String × String)} {k : String} :
    k ∈ keysOf c ↔ (lookupA c k).isSome := by
  induction c with
  | nil => simp [keysOf, lookupA]
  | cons kv rest ih =>
    obtain ⟨k', v'⟩ := kv
    by_cases hk : k' = k
    · subst hk
      simp [keysOf_cons, lookupA]
    · have hk' : ¬k = k' := fun h => hk h.symm
      rw [keysOf_cons, List.mem_cons, ih]
      simp [lookupA, hk, hk']

theorem lookupA_eq_none_iff {c : List (String × String)} {k : String} :
    lookupA c k = none ↔ k ∉ keysOf c := by
  rw [mem_keysOf_iff_lookupA, Option.isSome_iff_ne_none]
  simp

theorem keysOf_append (a b : List (String × String)) :
    keysOf (a ++ b) = keysOf a ++ keysOf b := by
  simp [keysOf]

theorem fsLookup_mem {fs : FS} {p : String} {o : FileOutcome}
    (h : fsLookup fs p = some o) : (p, o) ∈ fs := by
  induction fs with
  | nil => simp [fsLookup] at h
  | cons e rest ih =>
    obtain ⟨p', o'⟩ := e
    by_cases hp : p' = p
    · simp [fsLookup, hp] at h
      simp [hp, h]
    · simp [fsLookup, hp] at h
      exact List.mem_cons_of_mem _ (ih h)

/-! ### The termination measure -/

theorem countMissing_mono {univ : List String} {c c' : List (String × String)}
    (h : ∀ x, x ∈ keysOf c → x ∈ keysOf c') :
    countMissing univ c' ≤ countMissing univ c := by
  unfold countMissing
  have hsub : List.Sublist (univ.dedup.filter (fun x => (lookupA c' x).isNone))
      (univ.dedup.filter (fun x => (lookupA c x).isNone)) := by
    apply List.monotone_filter_right
    intro a ha
    simp only [Option.isNone_iff_eq_none] at ha ⊢
    rw [lookupA_eq_none_iff] at ha ⊢
    intro hmem
    exact ha (h a hmem)
  exact hsub.length_le

theorem countMissing_lt_insert {univ : List String} {c : List (String × String)}
    {u : String} (v : String) (hu : u ∈ univ) (hnone : lookupA c u = none) :
    countMissing univ (c ++ [(u, v)]) < countMissing univ c := by
  unfold countMissing
  have himp : ∀ x, (lookupA (c ++ [(u, v)]) x).isNone = true →
      (lookupA c x).isNone = true := by
    intro x hx
    simp only [Option.isNone_iff_eq_none] at hx ⊢
    cases hcx : lookupA c x with
    | none => rfl
    | some w => rw [lookupA_append_some _ hcx] at hx; exact absurd hx (by simp)
  have hsub : List.Sublist (univ.dedup.filter (fun x => (lookupA (c ++ [(u, v)]) x).isNone))
      (univ.dedup.filter (fun x => (lookupA c x).isNone)) :=
    List.monotone_filter_right _ himp
  apply Nat.lt_of_le_of_ne hsub.length_le
  intro heq
  have hEq : univ.dedup.filter (fun x => (lookupA (c ++ [(u, v)]) x).isNone) =
      univ.dedup.filter (fun x => (lookupA c x).isNone) := hsub.eq_of_length heq
  have humem : u ∈ univ.dedup.filter (fun x => (lookupA c x).isNone) := by
    rw [List.mem_filter]
    exact ⟨List.mem_dedup.mpr hu, by simp [hnone]⟩
  rw [← hEq, List.mem_filter] at humem
  have : lookupA (c ++ [(u, v)]) u = some v := by
    rw [lookupA_append_none _ hnone]
    simp [lookupA]
  simp [this] at humem

/-! ### The step function of the import loop -/

/-- The body of the `for imp in imports` loop of `collect_classes`. -/
def collectStep (fs : FS) (sourceDir : String) (fuel : Nat)
    (acc : CState) (imp : String) : CState :=
  if skipImport imp then acc
  else if isProjectImport fs sourceDir imp then
    collectFuel fs sourceDir fuel imp acc
  else acc

/-- Unfolding of one fueled step of the walk in terms of `collectStep`. -/
theorem collectFuel_succ (fs : FS) (sourceDir : String) (fuel : Nat)
    (fullClassName : String) (st : CState) :
    collectFuel fs sourceDir (fuel + 1) fullClassName st =
      if (lookupA st.1 fullClassName).isSome then st
      else
        match fsLookup fs (resolvePath sourceDir fullClassName) with
        | none => (st.1, st.2 ++ [Diag.missingFile fullClassName])
        | some outcome =>
          let pr := parseJavaFile (resolvePath sourceDir fullClassName) outcome
          if pr.1.className ≠ some (lastSegment fullClassName) then
            (st.1, st.2 ++ pr.2 ++ [Diag.nameMismatch fullClassName])
          else
            pr.1.imports.foldl (collectStep fs sourceDir fuel)
              (st.1 ++ [(fullClassName, pr.1.classCode)], st.2 ++ pr.2) := by
  rfl

/-! ### Monotonicity: the walk only appends to the state -/

theorem foldl_extends {g : CState → String → CState}
    (hg : ∀ acc imp, ∃ c' d', g acc imp = (acc.1 ++ c', acc.2 ++ d'))
    (l : List String) (st : CState) :
    ∃ c' d', l.foldl g st = (st.1 ++ c', st.2 ++ d') := by
  induction l generalizing st with
  | nil => exact ⟨[], [], by simp⟩
  | cons a l ih =>
    obtain ⟨c1, d1, h1⟩ := hg st a
    obtain ⟨c2, d2, h2⟩ := ih (g st a)
    refine ⟨c1 ++ c2, d1 ++ d2, ?_⟩
    rw [List.foldl_cons, h2, h1]
    simp [List.append_assoc]

theorem collectFuel_extends (fs : FS) (sourceDir : String) :
    ∀ (fuel : Nat) (fullClassName : String) (st : CState),
    ∃ c' d', collectFuel fs sourceDir fuel fullClassName st = (st.1 ++ c', st.2 ++ d') := by
  intro fuel
  induction fuel with
  | zero => intro full st; exact ⟨[], [], by simp [collectFuel]⟩
  | succ fuel ih =>
    intro full st
    cases hmem : (lookupA st.1 full).isSome with
    | true =>
      refine ⟨[], [], ?_⟩
      rw [collectFuel_succ]
      simp [hmem]
    | false =>
      cases hfs : fsLookup fs (resolvePath sourceDir full) with
      | none =>
        refine ⟨[], [Diag.missingFile full], ?_⟩
        rw [collectFuel_succ]
        simp [hmem, hfs]
      | some outcome =>
        by_cases hname : (parseJavaFile (resolvePath sourceDir full) outcome).1.className =
            some (lastSegment full)
        · have hstep : ∀ acc imp, ∃ c' d',
              collectStep fs sourceDir fuel acc imp = (acc.1 ++ c', acc.2 ++ d') := by
            intro acc imp
            unfold collectStep
            by_cases hskip : skipImport imp
            · exact ⟨[], [], by simp [hskip]⟩
            · by_cases hproj : isProjectImport fs sourceDir imp
              · simpa [hskip, hproj] using ih imp acc
              · exact ⟨[], [], by simp [hskip, hproj]⟩
          obtain ⟨c2, d2, h2⟩ := foldl_extends hstep
            (parseJavaFile (resolvePath sourceDir full) outcome).1.imports
            (st.1 ++ [(full, (parseJavaFile (resolvePath sourceDir full) outcome).1.classCode)],
              st.2 ++ (parseJavaFile (resolvePath sourceDir full) outcome).2)
          refine ⟨(full, (parseJavaFile (resolvePath sourceDir full) outcome).1.classCode) :: c2,
            (parseJavaFile (resolvePath sourceDir full) outcome).2 ++ d2, ?_⟩
          rw [collectFuel_succ]
          simp only [hmem, Bool.false_eq_true, if_false, hfs, hname, ne_eq,
            not_true_eq_false, if_false, ite_false]
          rw [h2]
          simp [List.append_assoc]
        · refine ⟨[], (parseJavaFile (resolvePath sourceDir full) outcome).2 ++
            [Diag.nameMismatch full], ?_⟩
          rw [collectFuel_succ]
          simp [hmem, hfs, hname]

/-- Keys already collected stay collected. -/
theorem collectFuel_keys_mono {fs : FS} {sourceDir : String} {fuel : Nat}
    {fullClassName : String} {st : CState} {x : String}
    (h : x ∈ keysOf st.1) :
    x ∈ keysOf (collectFuel fs sourceDir fuel fullClassName st).1 := by
  obtain ⟨c', d', heq⟩ := collectFuel_extends fs sourceDir fuel fullClassName st
  rw [heq]
  simp only [keysOf_append]
  exact List.mem_append_left _ h

/-- Diagnostics already emitted stay emitted. -/
theorem collectFuel_diags_mono {fs : FS} {sourceDir : String} {fuel : Nat}
    {fullClassName : String} {st : CState} {w : Diag}
    (h : w ∈ st.2) :
    w ∈ (collectFuel fs sourceDir fuel fullClassName st).2 := by
  obtain ⟨c', d', heq⟩ := collectFuel_extends fs sourceDir fuel fullClassName st
  rw [heq]
  exact List.mem_append_left _ h

/-! ### The project-import graph induced by the file system -/

/-- The outcome stored at the candidate path of an identifier. -/
def fileAt (fs : FS) (sourceDir ident : String) : Option FileOutcome :=
  fsLookup fs (resolvePath sourceDir ident)

/-- The imports extracted from the identifier's file (empty if the file
does not exist). -/
def importsOf (fs : FS) (sourceDir ident : String) : List String :=
  match fileAt fs sourceDir ident with
  | some o => (parseJavaFile (resolvePath sourceDir ident) o).1.imports
  | none => []

/-- The declared primary class name extracted from the identifier's file. -/
def declaredOf (fs : FS) (sourceDir ident : String) : Option String :=
  match fileAt fs sourceDir ident with
  | some o => (parseJavaFile (resolvePath sourceDir ident) o).1.className
  | none => none

/-- The class code extracted from the identifier's file. -/
def classCodeOf (fs : FS) (sourceDir ident : String) : String :=
  match fileAt fs sourceDir ident with
  | some o => (parseJavaFile (resolvePath sourceDir ident) o).1.classCode
  | none => ""

/-- An identifier the walk can insert: its candidate file exists and the
declared primary class name equals the identifier's last segment. -/
def okNode (fs : FS) (sourceDir ident : String) : Prop :=
  (fileAt fs sourceDir ident).isSome = true ∧
    declaredOf fs sourceDir ident = some (lastSegment ident)

instance (fs : FS) (sourceDir ident : String) : Decidable (okNode fs sourceDir ident) :=
  inferInstanceAs (Decidable (_ ∧ _))

/-- Project-local import edge of the raw import graph: `w` is declared as
an import in `v`'s file, is not skipped by the reserved-prefix test, and
`w`'s candidate file exists (`is_project_import`). -/
def RawEdge (fs : FS) (sourceDir v w : String) : Prop :=
  (fileAt fs sourceDir v).isSome = true ∧ w ∈ importsOf fs sourceDir v ∧
    skipImport w = false ∧ (fileAt fs sourceDir w).isSome = true

/-- Edge of the effective traversal graph: like `RawEdge`, but the target
must additionally be insertable (mismatching targets are dropped). -/
def GEdge (fs : FS) (sourceDir v w : String) : Prop :=
  w ∈ importsOf fs sourceDir v ∧ skipImport w = false ∧ okNode fs sourceDir w

/-- Raw reachability from the root through project-local import edges. -/
inductive RawReach (fs : FS) (sourceDir root : String) : String → Prop
  | refl : (fileAt fs sourceDir root).isSome = true → RawReach fs sourceDir root root
  | step {v w : String} : RawReach fs sourceDir root v → RawEdge fs sourceDir v w →
      RawReach fs sourceDir root w

/-- Reachability through insertable nodes only: every node of such a chain
is an `okNode`. -/
inductive GReach (fs : FS) (sourceDir root : String) : String → Prop
  | refl : okNode fs sourceDir root → GReach fs sourceDir root root
  | step {v w : String} : GReach fs sourceDir root v → GEdge fs sourceDir v w →
      GReach fs sourceDir root w

theorem GReach_start_ok {fs : FS} {sourceDir root v : String}
    (h : GReach fs sourceDir root v) : okNode fs sourceDir root := by
  induction h with
  | refl hok => exact hok
  | step _ _ ih => exact ih

theorem GReach_end_ok {fs : FS} {sourceDir root v : String}
    (h : GReach fs sourceDir root v) : okNode fs sourceDir v := by
  induction h with
  | refl hok => exact hok
  | step _ hedge _ => exact hedge.2.2

/-- Prepend one edge to a reachability chain. -/
theorem GReach_extend_front {fs : FS} {sourceDir u a y : String}
    (hu : okNode fs sourceDir u) (hedge : GEdge fs sourceDir u a)
    (h : GReach fs sourceDir a y) : GReach fs sourceDir u y := by
  induction h with
  | refl _ => exact GReach.step (GReach.refl hu) hedge
  | step _ he ih => exact GReach.step ih he

theorem GReach_cases_end {fs : FS} {sourceDir root v : String}
    (h : GReach fs sourceDir root v) :
    v = root ∨ (skipImport v = false ∧ ∃ p, GEdge fs sourceDir p v) := by
  cases h with
  | refl _ => exact Or.inl rfl
  | step hr hedge => exact Or.inr ⟨hedge.2.1, _, hedge⟩

/-- Under the hypothesis that every raw-reachable identifier is insertable,
raw reachability implies effective reachability. -/
theorem RawReach_to_GReach {fs : FS} {sourceDir root : String}
    (H : ∀ v, RawReach fs sourceDir root v → okNode fs sourceDir v)
    {v : String} (h : RawReach fs sourceDir root v) : GReach fs sourceDir root v := by
  induction h with
  | refl hfile => exact GReach.refl (H root (RawReach.refl hfile))
  | step hr hedge ih =>
    exact GReach.step ih ⟨hedge.2.1, hedge.2.2.1, H _ (RawReach.step hr hedge)⟩

theorem GReach_to_RawReach {fs : FS} {sourceDir root : String}
    {v : String} (h : GReach fs sourceDir root v) : RawReach fs sourceDir root v := by
  induction h with
  | refl hok => exact RawReach.refl hok.1
  | step hr hedge ih =>
    exact RawReach.step ih ⟨(GReach_end_ok hr).1, hedge.1, hedge.2.1, hedge.2.2.1⟩

/-! ### Branch equations for the fueled walk -/

theorem importsOf_eq_of_fsLookup {fs : FS} {sourceDir u : String} {o : FileOutcome}
    (hfs : fsLookup fs (resolvePath sourceDir u) = some o) :
    importsOf fs sourceDir u = (parseJavaFile (resolvePath sourceDir u) o).1.imports := by
  unfold importsOf fileAt
  rw [hfs]

theorem declaredOf_eq_of_fsLookup {fs : FS} {sourceDir u : String} {o : FileOutcome}
    (hfs : fsLookup fs (resolvePath sourceDir u) = some o) :
    declaredOf fs sourceDir u = (parseJavaFile (resolvePath sourceDir u) o).1.className := by
  unfold declaredOf fileAt
  rw [hfs]

theorem classCodeOf_eq_of_fsLookup {fs : FS} {sourceDir u : String} {o : FileOutcome}
    (hfs : fsLookup fs (resolvePath sourceDir u) = some o) :
    classCodeOf fs sourceDir u = (parseJavaFile (resolvePath sourceDir u) o).1.classCode := by
  unfold classCodeOf fileAt
  rw [hfs]

theorem collectFuel_zero (fs : FS) (sourceDir u : String) (st : CState) :
    collectFuel fs sourceDir 0 u st = st := rfl

theorem collectFuel_memo_eq {fs : FS} {sourceDir : String} (fuel : Nat) {u : String}
    {st : CState} (hmem : (lookupA st.1 u).isSome = true) :
    collectFuel fs sourceDir (fuel + 1) u st = st := by
  rw [collectFuel_succ]
  simp [hmem]

theorem collectFuel_missing_eq {fs : FS} {sourceDir : String} (fuel : Nat) {u : String}
    {st : CState} (hmem : (lookupA st.1 u).isSome = false)
    (hfs : fsLookup fs (resolvePath sourceDir u) = none) :
    collectFuel fs sourceDir (fuel + 1) u st = (st.1, st.2 ++ [Diag.missingFile u]) := by
  rw [collectFuel_succ]
  simp [hmem, hfs]

theorem collectFuel_mismatch_eq {fs : FS} {sourceDir : String} (fuel : Nat) {u : String}
    {st : CState} {o : FileOutcome} (hmem : (lookupA st.1 u).isSome = false)
    (hfs : fsLookup fs (resolvePath sourceDir u) = some o)
    (hname : (parseJavaFile (resolvePath sourceDir u) o).1.className ≠ some (lastSegment u)) :
    collectFuel fs sourceDir (fuel + 1) u st =
      (st.1, st.2 ++ (parseJavaFile (resolvePath sourceDir u) o).2 ++ [Diag.nameMismatch u]) := by
  rw [collectFuel_succ]
  simp [hmem, hfs, hname]

theorem collectFuel_insert_eq {fs : FS} {sourceDir : String} (fuel : Nat) {u : String}
    {st : CState} {o : FileOutcome} (hmem : (lookupA st.1 u).isSome = false)
    (hfs : fsLookup fs (resolvePath sourceDir u) = some o)
    (hname : (parseJavaFile (resolvePath sourceDir u) o).1.className = some (lastSegment u)) :
    collectFuel fs sourceDir (fuel + 1) u st =
      (importsOf fs sourceDir u).foldl (collectStep fs sourceDir fuel)
        (st.1 ++ [(u, classCodeOf fs sourceDir u)],
          st.2 ++ (parseJavaFile (resolvePath sourceDir u) o).2) := by
  rw [collectFuel_succ]
  rw [importsOf_eq_of_fsLookup hfs, classCodeOf_eq_of_fsLookup hfs]
  simp [hmem, hfs, hname]

/-- One loop step only appends to the state. -/
theorem collectStep_extends (fs : FS) (sourceDir : String) (fuel : Nat) :
    ∀ (acc : CState) (imp : String), ∃ c' d',
      collectStep fs sourceDir fuel acc imp = (acc.1 ++ c', acc.2 ++ d') := by
  intro acc imp
  unfold collectStep
  by_cases hskip : skipImport imp
  · exact ⟨[], [], by simp [hskip]⟩
  · by_cases hproj : isProjectImport fs sourceDir imp
    · simpa [hskip, hproj] using collectFuel_extends fs sourceDir fuel imp acc
    · exact ⟨[], [], by simp [hskip, hproj]⟩

theorem foldl_collectStep_keys_mono {fs : FS} {sourceDir : String} {fuel : Nat}
    {l : List String} {acc : CState} {x : String} (h : x ∈ keysOf acc.1) :
    x ∈ keysOf (l.foldl (collectStep fs sourceDir fuel) acc).1 := by
  obtain ⟨c', d', heq⟩ := foldl_extends (collectStep_extends fs sourceDir fuel) l acc
  rw [heq, keysOf_append]
  exact List.mem_append_left _ h

theorem foldl_collectStep_diags_mono {fs : FS} {sourceDir : String} {fuel : Nat}
    {l : List String} {acc : CState} {w : Diag} (h : w ∈ acc.2) :
    w ∈ (l.foldl (collectStep fs sourceDir fuel) acc).2 := by
  obtain ⟨c', d', heq⟩ := foldl_extends (collectStep_extends fs sourceDir fuel) l acc
  rw [heq]
  exact List.mem_append_left _ h

theorem countMissing_pos {univ : List String} {c : List (String × String)} {u : String}
    (hu : u ∈ univ) (hnone : lookupA c u = none) : 1 ≤ countMissing univ c := by
  unfold countMissing
  have : u ∈ univ.dedup.filter (fun x => (lookupA c x).isNone) :=
    List.mem_filter.mpr ⟨List.mem_dedup.mpr hu, by simp [hnone]⟩
  calc 1 ≤ 1 := le_refl 1
    _ ≤ _ := List.length_pos.mpr (List.ne_nil_of_mem this)

/-- An insertable identifier is a key of the result of any call on it with
positive fuel: either it was already collected, or this call inserts it. -/
theorem collectFuel_self_mem {fs : FS} {sourceDir : String} {fuel : Nat} {u : String}
    {st : CState} (hfuel : 1 ≤ fuel) (hok : okNode fs sourceDir u) :
    u ∈ keysOf (collectFuel fs sourceDir fuel u st).1 := by
  obtain ⟨fuel, rfl⟩ : ∃ f, fuel = f + 1 := ⟨fuel - 1, by omega⟩
  obtain ⟨o, hfs⟩ := Option.isSome_iff_exists.mp hok.1
  have hname : (parseJavaFile (resolvePath sourceDir u) o).1.className =
      some (lastSegment u) := by
    rw [← declaredOf_eq_of_fsLookup hfs]
    exact hok.2
  cases hmem : (lookupA st.1 u).isSome with
  | true =>
    rw [collectFuel_memo_eq fuel hmem]
    exact mem_keysOf_iff_lookupA.mpr hmem
  | false =>
    rw [collectFuel_insert_eq fuel hmem hfs hname]
    apply foldl_collectStep_keys_mono
    rw [keysOf_append]
    exact List.mem_append_right _ (by simp [keysOf])

/-! ### Provenance: every key is effectively reachable -/

theorem collectFuel_keys_provenance {fs : FS} {sourceDir : String} :
    ∀ (fuel : Nat) (u : String) (st : CState) (x : String),
      x ∈ keysOf (collectFuel fs sourceDir fuel u st).1 →
      x ∈ keysOf st.1 ∨ GReach fs sourceDir u x := by
  intro fuel
  induction fuel with
  | zero =>
    intro u st x hx
    rw [collectFuel_zero] at hx
    exact Or.inl hx
  | succ fuel ih =>
    intro u st x hx
    cases hmem : (lookupA st.1 u).isSome with
    | true =>
      rw [collectFuel_memo_eq fuel hmem] at hx
      exact Or.inl hx
    | false =>
      cases hfs : fsLookup fs (resolvePath sourceDir u) with
      | none =>
        rw [collectFuel_missing_eq fuel hmem hfs] at hx
        exact Or.inl hx
      | some o =>
        by_cases hname : (parseJavaFile (resolvePath sourceDir u) o).1.className =
            some (lastSegment u)
        case neg =>
          rw [collectFuel_mismatch_eq fuel hmem hfs hname] at hx
          exact Or.inl hx
        case pos =>
          rw [collectFuel_insert_eq fuel hmem hfs hname] at hx
          have hok : okNode fs sourceDir u :=
            ⟨by simp [fileAt, hfs], by rw [declaredOf_eq_of_fsLookup hfs]; exact hname⟩
          have main : ∀ (l : List String) (acc : CState),
              (∀ imp, imp ∈ l → imp ∈ importsOf fs sourceDir u) →
              (∀ y, y ∈ keysOf acc.1 → y ∈ keysOf st.1 ∨ GReach fs sourceDir u y) →
              ∀ y, y ∈ keysOf (l.foldl (collectStep fs sourceDir fuel) acc).1 →
                y ∈ keysOf st.1 ∨ GReach fs sourceDir u y := by
            intro l
            induction l with
            | nil =>
              intro acc _ hacc y hy
              exact hacc y hy
            | cons a l ihl =>
              intro acc hsub hacc y hy
              rw [List.foldl_cons] at hy
              refine ihl _ (fun imp h => hsub imp (List.mem_cons_of_mem a h)) ?_ y hy
              intro z hz
              unfold collectStep at hz
              by_cases hskip : skipImport a = true
              · rw [if_pos hskip] at hz
                exact hacc z hz
              · by_cases hproj : isProjectImport fs sourceDir a = true
                · rw [if_neg hskip, if_pos hproj] at hz
                  rcases ih a acc z hz with hin | hreach
                  · exact hacc z hin
                  · refine Or.inr ?_
                    have hoka : okNode fs sourceDir a := GReach_start_ok hreach
                    have hedge : GEdge fs sourceDir u a :=
                      ⟨hsub a (List.mem_cons_self a l),
                        Bool.not_eq_true _ ▸ eq_false_of_ne_true hskip, hoka⟩
                    exact GReach_extend_front hok hedge hreach
                · rw [if_neg hskip, if_neg hproj] at hz
                  exact hacc z hz
          refine main _ _ (fun imp h => h) ?_ x hx
          intro y hy
          rw [keysOf_append] at hy
          rcases List.mem_append.mp hy with h | h
          · exact Or.inl h
          · have : y = u := by simpa [keysOf] using h
            subst this
            exact Or.inr (GReach.refl hok)

/-! ### The key list stays duplicate-free -/

theorem collectFuel_keys_nodup {fs : FS} {sourceDir : String} :
    ∀ (fuel : Nat) (u : String) (st : CState),
      (keysOf st.1).Nodup → (keysOf (collectFuel fs sourceDir fuel u st).1).Nodup := by
  intro fuel
  induction fuel with
  | zero =>
    intro u st h
    rwa [collectFuel_zero]
  | succ fuel ih =>
    intro u st hnd
    cases hmem : (lookupA st.1 u).isSome with
    | true =>
      rwa [collectFuel_memo_eq fuel hmem]
    | false =>
      cases hfs : fsLookup fs (resolvePath sourceDir u) with
      | none =>
        rwa [collectFuel_missing_eq fuel hmem hfs]
      | some o =>
        by_cases hname : (parseJavaFile (resolvePath sourceDir u) o).1.className =
            some (lastSegment u)
        case neg =>
          rwa [collectFuel_mismatch_eq fuel hmem hfs hname]
        case pos =>
          rw [collectFuel_insert_eq fuel hmem hfs hname]
          have hbase : (keysOf (st.1 ++ [(u, classCodeOf fs sourceDir u)])).Nodup := by
            rw [keysOf_append]
            rw [List.nodup_append]
            refine ⟨hnd, by simp [keysOf], ?_⟩
            intro a ha hb
            have : a = u := by simpa [keysOf] using hb
            subst this
            have : lookupA st.1 a = none := by
              cases h : lookupA st.1 a with
              | none => rfl
              | some v => rw [h] at hmem; simp at hmem
            exact (lookupA_eq_none_iff.mp this) ha
          have main : ∀ (l : List String) (acc : CState),
              (keysOf acc.1).Nodup →
              (keysOf (l.foldl (collectStep fs sourceDir fuel) acc).1).Nodup := by
            intro l
            induction l with
            | nil =>
              intro acc h
              exact h
            | cons a l ihl =>
              intro acc hacc
              rw [List.foldl_cons]
              refine ihl _ ?_
              unfold collectStep
              by_cases hskip : skipImport a = true
              · rwa [if_pos hskip]
              · by_cases hproj : isProjectImport fs sourceDir a = true
                · rw [if_neg hskip, if_pos hproj]
                  exact ih a acc hacc
                · rwa [if_neg hskip, if_neg hproj]
          exact main _ _ hbase

/-! ### Diagnostic provenance -/

theorem parseJavaFile_diags_readError {p : String} {o : FileOutcome} {w : Diag}
    (h : w ∈ (parseJavaFile p o).2) : ∃ q, w = Diag.readError q := by
  cases o with
  | unreadable =>
    simp [parseJavaFile] at h
    exact ⟨p, h⟩
  | readable content => simp [parseJavaFile] at h

theorem collectFuel_missingFile_provenance {fs : FS} {sourceDir : String} :
    ∀ (fuel : Nat) (u : String) (st : CState) (x : String),
      Diag.missingFile x ∈ (collectFuel fs sourceDir fuel u st).2 →
      Diag.missingFile x ∈ st.2 ∨
        (x = u ∧ fsLookup fs (resolvePath sourceDir u) = none) := by
  intro fuel
  induction fuel with
  | zero =>
    intro u st x hx
    rw [collectFuel_zero] at hx
    exact Or.inl hx
  | succ fuel ih =>
    intro u st x hx
    cases hmem : (lookupA st.1 u).isSome with
    | true =>
      rw [collectFuel_memo_eq fuel hmem] at hx
      exact Or.inl hx
    | false =>
      cases hfs : fsLookup fs (resolvePath sourceDir u) with
      | none =>
        rw [collectFuel_missing_eq fuel hmem hfs] at hx
        rcases List.mem_append.mp hx with h | h
        · exact Or.inl h
        · have : x = u := by simpa using h
          exact Or.inr ⟨this, rfl⟩
      | some o =>
        by_cases hname : (parseJavaFile (resolvePath sourceDir u) o).1.className =
            some (lastSegment u)
        case neg =>
          rw [collectFuel_mismatch_eq fuel hmem hfs hname] at hx
          rcases List.mem_append.mp hx with h | h
          · rcases List.mem_append.mp h with h' | h'
            · exact Or.inl h'
            · obtain ⟨q, hq⟩ := parseJavaFile_diags_readError h'
              exact absurd hq (by simp)
          · simp at h
        case pos =>
          rw [collectFuel_insert_eq fuel hmem hfs hname] at hx
          have main : ∀ (l : List String) (acc : CState),
              (Diag.missingFile x ∈ acc.2 → Diag.missingFile x ∈ st.2) →
              Diag.missingFile x ∈ (l.foldl (collectStep fs sourceDir fuel) acc).2 →
              Diag.missingFile x ∈ st.2 := by
            intro l
            induction l with
            | nil =>
              intro acc hacc h
              exact hacc h
            | cons a l ihl =>
              intro acc hacc h
              rw [List.foldl_cons] at h
              refine ihl _ ?_ h
              intro hz
              unfold collectStep at hz
              by_cases hskip : skipImport a = true
              · rw [if_pos hskip] at hz
                exact hacc hz
              · by_cases hproj : isProjectImport fs sourceDir a = true
                · rw [if_neg hskip, if_pos hproj] at hz
                  rcases ih a acc x hz with hin | ⟨hxa, hnone⟩
                  · exact hacc hin
                  · subst hxa
                    unfold isProjectImport isfile at hproj
                    rw [hnone] at hproj
                    simp at hproj
                · rw [if_neg hskip, if_neg hproj] at hz
                  exact hacc hz
          refine Or.inl (main _ _ ?_ hx)
          intro h
          rcases List.mem_append.mp h with h' | h'
          · exact h'
          · obtain ⟨q, hq⟩ := parseJavaFile_diags_readError h'
            exact absurd hq (by simp)

theorem collectFuel_nameMismatch_provenance {fs : FS} {sourceDir : String} :
    ∀ (fuel : Nat) (u : String) (st : CState) (x : String),
      Diag.nameMismatch x ∈ (collectFuel fs sourceDir fuel u st).2 →
      Diag.nameMismatch x ∈ st.2 ∨
        ((fileAt fs sourceDir x).isSome = true ∧
          declaredOf fs sourceDir x ≠ some (lastSegment x) ∧
          (x = u ∨ skipImport x = false)) := by
  intro fuel
  induction fuel with
  | zero =>
    intro u st x hx
    rw [collectFuel_zero] at hx
    exact Or.inl hx
  | succ fuel ih =>
    intro u st x hx
    cases hmem : (lookupA st.1 u).isSome with
    | true =>
      rw [collectFuel_memo_eq fuel hmem] at hx
      exact Or.inl hx
    | false =>
      cases hfs : fsLookup fs (resolvePath sourceDir u) with
      | none =>
        rw [collectFuel_missing_eq fuel hmem hfs] at hx
        rcases List.mem_append.mp hx with h | h
        · exact Or.inl h
        · simp at h
      | some o =>
        by_cases hname : (parseJavaFile (resolvePath sourceDir u) o).1.className =
            some (lastSegment u)
        case neg =>
          rw [collectFuel_mismatch_eq fuel hmem hfs hname] at hx
          rcases List.mem_append.mp hx with h | h
          · rcases List.mem_append.mp h with h' | h'
            · exact Or.inl h'
            · obtain ⟨q, hq⟩ := parseJavaFile_diags_readError h'
              exact absurd hq (by simp)
          · have hux : x = u := by simpa using h
            subst hux
            refine Or.inr ⟨by simp [fileAt, hfs], ?_, Or.inl rfl⟩
            rw [declaredOf_eq_of_fsLookup hfs]
            exact hname
        case pos =>
          rw [collectFuel_insert_eq fuel hmem hfs hname] at hx
          have main : ∀ (l : List String) (acc : CState),
              (Diag.nameMismatch x ∈ acc.2 →
                Diag.nameMismatch x ∈ st.2 ∨
                  ((fileAt fs sourceDir x).isSome = true ∧
                    declaredOf fs sourceDir x ≠ some (lastSegment x) ∧
                    (x = u ∨ skipImport x = false))) →
              Diag.nameMismatch x ∈ (l.foldl (collectStep fs sourceDir fuel) acc).2 →
              Diag.nameMismatch x ∈ st.2 ∨
                ((fileAt fs sourceDir x).isSome = true ∧
                  declaredOf fs sourceDir x ≠ some (lastSegment x) ∧
                  (x = u ∨ skipImport x = false)) := by
            intro l
            induction l with
            | nil =>
              intro acc hacc h
              exact hacc h
            | cons a l ihl =>
              intro acc hacc h
              rw [List.foldl_cons] at h
              refine ihl _ ?_ h
              intro hz
              unfold collectStep at hz
              by_cases hskip : skipImport a = true
              · rw [if_pos hskip] at hz
                exact hacc hz
              · by_cases hproj : isProjectImport fs sourceDir a = true
                · rw [if_neg hskip, if_pos hproj] at hz
                  rcases ih a acc x hz with hin | ⟨hfile, hdecl, hwho⟩
                  · exact hacc hin
                  · refine Or.inr ⟨hfile, hdecl, Or.inr ?_⟩
                    rcases hwho with hxa | hsk
                    · subst hxa
                      exact eq_false_of_ne_true hskip
                    · exact hsk
                · rw [if_neg hskip, if_neg hproj] at hz
                  exact hacc hz
          refine main _ _ ?_ hx
          intro h
          rcases List.mem_append.mp h with h' | h'
          · exact Or.inl h'
          · obtain ⟨q, hq⟩ := parseJavaFile_diags_readError h'
            exact absurd hq (by simp)

/-! ### Closedness of the collected map -/

theorem importsOf_mem_allImports {fs : FS} {sourceDir u imp : String}
    (h : imp ∈ importsOf fs sourceDir u) : imp ∈ allImports fs := by
  unfold importsOf fileAt at h
  cases heq : fsLookup fs (resolvePath sourceDir u) with
  | none => rw [heq] at h; simp at h
  | some o =>
    rw [heq] at h
    exact List.mem_flatMap.mpr ⟨(resolvePath sourceDir u, o), fsLookup_mem heq, h⟩

theorem collectStep_keys_mono {fs : FS} {sourceDir : String} {fuel : Nat}
    {acc : CState} {imp x : String} (h : x ∈ keysOf acc.1) :
    x ∈ keysOf (collectStep fs sourceDir fuel acc imp).1 := by
  obtain ⟨c', d', heq⟩ := collectStep_extends fs sourceDir fuel acc imp
  rw [heq, keysOf_append]
  exact List.mem_append_left _ h

/-- Every project-local, name-matching import of the current identifier is
collected by the import loop. -/
theorem foldl_collectStep_adds_ok {fs : FS} {sourceDir : String} {fuel : Nat}
    (hfuel : 1 ≤ fuel) :
    ∀ (l : List String) (acc : CState) (w : String),
      w ∈ l → skipImport w = false → okNode fs sourceDir w →
      w ∈ keysOf (l.foldl (collectStep fs sourceDir fuel) acc).1 := by
  intro l
  induction l with
  | nil =>
    intro acc w hw
    simp at hw
  | cons a l ihl =>
    intro acc w hw hskip hok
    rw [List.foldl_cons]
    rcases List.mem_cons.mp hw with rfl | hmem
    · apply foldl_collectStep_keys_mono
      unfold collectStep
      rw [if_neg (by simp [hskip]), if_pos (by
        unfold isProjectImport isfile
        unfold okNode fileAt at hok
        exact hok.1)]
      exact collectFuel_self_mem hfuel hok
    · exact ihl _ w hmem hskip hok

theorem collectFuel_closed {fs : FS} {sourceDir : String} {univ : List String}
    (himps : ∀ x, x ∈ allImports fs → x ∈ univ) :
    ∀ (fuel : Nat) (u : String) (st : CState),
      u ∈ univ →
      countMissing univ st.1 + 1 ≤ fuel →
      ∀ v w, v ∈ keysOf (collectFuel fs sourceDir fuel u st).1 →
        v ∉ keysOf st.1 → GEdge fs sourceDir v w →
        w ∈ keysOf (collectFuel fs sourceDir fuel u st).1 := by
  intro fuel
  induction fuel with
  | zero =>
    intro u st _ hf
    omega
  | succ fuel ih =>
    intro u st hu hf v w hv hvst hedge
    cases hmem : (lookupA st.1 u).isSome with
    | true =>
      rw [collectFuel_memo_eq fuel hmem] at hv
      exact absurd hv hvst
    | false =>
      have hlooku : lookupA st.1 u = none := by
        cases h : lookupA st.1 u with
        | none => rfl
        | some z => rw [h] at hmem; simp at hmem
      cases hfs : fsLookup fs (resolvePath sourceDir u) with
      | none =>
        rw [collectFuel_missing_eq fuel hmem hfs] at hv
        exact absurd hv hvst
      | some o =>
        by_cases hname : (parseJavaFile (resolvePath sourceDir u) o).1.className =
            some (lastSegment u)
        case neg =>
          rw [collectFuel_mismatch_eq fuel hmem hfs hname] at hv
          exact absurd hv hvst
        case pos =>
          rw [collectFuel_insert_eq fuel hmem hfs hname] at hv ⊢
          have hok : okNode fs sourceDir u :=
            ⟨by simp [fileAt, hfs], by rw [declaredOf_eq_of_fsLookup hfs]; exact hname⟩
          have hcmpos : 1 ≤ countMissing univ st.1 := countMissing_pos hu hlooku
          have hfuel1 : 1 ≤ fuel := by omega
          have hcm1 : countMissing univ
              (st.1 ++ [(u, classCodeOf fs sourceDir u)]) < countMissing univ st.1 :=
            countMissing_lt_insert _ hu hlooku
          have hfuel' : countMissing univ
              (st.1 ++ [(u, classCodeOf fs sourceDir u)]) + 1 ≤ fuel := by omega
          set st1 : CState := (st.1 ++ [(u, classCodeOf fs sourceDir u)],
            st.2 ++ (parseJavaFile (resolvePath sourceDir u) o).2) with hst1
          have himpsu : ∀ imp, imp ∈ importsOf fs sourceDir u → imp ∈ univ :=
            fun imp h => himps imp (importsOf_mem_allImports h)
          by_cases hvu : v = u
          · subst hvu
            exact foldl_collectStep_adds_ok hfuel1 _ st1 w hedge.1 hedge.2.1 hedge.2.2
          · have hmain : ∀ (l : List String) (acc : CState),
                (∀ imp, imp ∈ l → imp ∈ univ) →
                countMissing univ acc.1 + 1 ≤ fuel →
                (∀ p q, p ∈ keysOf acc.1 → p ∉ keysOf st.1 → p ≠ u →
                  GEdge fs sourceDir p q → q ∈ keysOf acc.1) →
                ∀ p q, p ∈ keysOf (l.foldl (collectStep fs sourceDir fuel) acc).1 →
                  p ∉ keysOf st.1 → p ≠ u → GEdge fs sourceDir p q →
                  q ∈ keysOf (l.foldl (collectStep fs sourceDir fuel) acc).1 := by
              intro l
              induction l with
              | nil =>
                intro acc _ _ hclosed p q hp hpst hpu he
                exact hclosed p q hp hpst hpu he
              | cons a l ihl =>
                intro acc hl hbound hclosed p q hp hpst hpu he
                rw [List.foldl_cons] at hp ⊢
                have hext : ∀ x, x ∈ keysOf acc.1 →
                    x ∈ keysOf (collectStep fs sourceDir fuel acc a).1 :=
                  fun x hx => collectStep_keys_mono hx
                have hbound' : countMissing univ (collectStep fs sourceDir fuel acc a).1 + 1 ≤
                    fuel := by
                  have hmono : countMissing univ
                      (collectStep fs sourceDir fuel acc a).1 ≤
                        countMissing univ acc.1 := countMissing_mono hext
                  omega
                refine ihl _ (fun imp h => hl imp (List.mem_cons_of_mem a h)) hbound' ?_
                  p q hp hpst hpu he
                intro p' q' hp' hp'st hp'u he'
                unfold collectStep at hp' ⊢
                by_cases hskip : skipImport a = true
                · rw [if_pos hskip] at hp' ⊢
                  exact hclosed p' q' hp' hp'st hp'u he'
                · by_cases hproj : isProjectImport fs sourceDir a = true
                  · rw [if_neg hskip, if_pos hproj] at hp' ⊢
                    by_cases hpacc : p' ∈ keysOf acc.1
                    · exact collectFuel_keys_mono (hclosed p' q' hpacc hp'st hp'u he')
                    · exact ih a acc (hl a (List.mem_cons_self a l)) hbound p' q' hp' hpacc he'
                  · rw [if_neg hskip, if_neg hproj] at hp' ⊢
                    exact hclosed p' q' hp' hp'st hp'u he'
            refine hmain _ st1 himpsu hfuel' ?_ v w hv hvst hvu hedge
            intro p q hp hpst hpu _
            rw [hst1] at hp
            rw [keysOf_append] at hp
            rcases List.mem_append.mp hp with h | h
            · exact absurd h hpst
            · have : p = u := by simpa [keysOf] using h
              exact absurd this hpu

/-! ### Fuel stability: the memoised recursion terminates -/

theorem collectFuel_stable {fs : FS} {sourceDir : String} {univ : List String}
    (himps : ∀ x, x ∈ allImports fs → x ∈ univ) :
    ∀ (f n : Nat) (u : String) (st : CState),
      u ∈ univ →
      countMissing univ st.1 + 1 ≤ f →
      countMissing univ st.1 + 1 ≤ n →
      collectFuel fs sourceDir f u st = collectFuel fs sourceDir n u st := by
  intro f
  induction f with
  | zero =>
    intro n u st _ hf
    omega
  | succ f ihf =>
    intro n u st hu hf hn
    obtain ⟨n, rfl⟩ : ∃ m, n = m + 1 := ⟨n - 1, by omega⟩
    cases hmem : (lookupA st.1 u).isSome with
    | true =>
      rw [collectFuel_memo_eq f hmem, collectFuel_memo_eq n hmem]
    | false =>
      have hlooku : lookupA st.1 u = none := by
        cases h : lookupA st.1 u with
        | none => rfl
        | some z => rw [h] at hmem; simp at hmem
      cases hfs : fsLookup fs (resolvePath sourceDir u) with
      | none =>
        rw [collectFuel_missing_eq f hmem hfs, collectFuel_missing_eq n hmem hfs]
      | some o =>
        by_cases hname : (parseJavaFile (resolvePath sourceDir u) o).1.className =
            some (lastSegment u)
        case neg =>
          rw [collectFuel_mismatch_eq f hmem hfs hname,
            collectFuel_mismatch_eq n hmem hfs hname]
        case pos =>
          rw [collectFuel_insert_eq f hmem hfs hname,
            collectFuel_insert_eq n hmem hfs hname]
          have hcmpos : 1 ≤ countMissing univ st.1 := countMissing_pos hu hlooku
          have hcm1 : countMissing univ
              (st.1 ++ [(u, classCodeOf fs sourceDir u)]) < countMissing univ st.1 :=
            countMissing_lt_insert _ hu hlooku
          have himpsu : ∀ imp, imp ∈ importsOf fs sourceDir u → imp ∈ univ :=
            fun imp h => himps imp (importsOf_mem_allImports h)
          have hfold : ∀ (l : List String) (acc : CState),
              (∀ imp, imp ∈ l → imp ∈ univ) →
              countMissing univ acc.1 + 1 ≤ f →
              countMissing univ acc.1 + 1 ≤ n →
              l.foldl (collectStep fs sourceDir f) acc =
                l.foldl (collectStep fs sourceDir n) acc := by
            intro l
            induction l with
            | nil =>
              intro acc _ _ _
              rfl
            | cons a l ihl =>
              intro acc hl hbf hbn
              rw [List.foldl_cons, List.foldl_cons]
              have hstep : collectStep fs sourceDir f acc a =
                  collectStep fs sourceDir n acc a := by
                unfold collectStep
                by_cases hskip : skipImport a = true
                · rw [if_pos hskip, if_pos hskip]
                · by_cases hproj : isProjectImport fs sourceDir a = true
                  · rw [if_neg hskip, if_pos hproj, if_neg hskip, if_pos hproj]
                    exact ihf n a acc (hl a (List.mem_cons_self a l)) hbf hbn
                  · rw [if_neg hskip, if_neg hproj, if_neg hskip, if_neg hproj]
              rw [hstep]
              have hext : ∀ x, x ∈ keysOf acc.1 →
                  x ∈ keysOf (collectStep fs sourceDir n acc a).1 :=
                fun x hx => collectStep_keys_mono hx
              have hmono : countMissing univ
                  (collectStep fs sourceDir n acc a).1 ≤
                    countMissing univ acc.1 := countMissing_mono hext
              exact ihl _ (fun imp h => hl imp (List.mem_cons_of_mem a h))
                (by omega) (by omega)
          have hgoal1 : countMissing univ
              (st.1 ++ [(u, classCodeOf fs sourceDir u)]) + 1 ≤ f := by omega
          have hgoal2 : countMissing univ
              (st.1 ++ [(u, classCodeOf fs sourceDir u)]) + 1 ≤ n := by omega
          exact hfold _ _ himpsu hgoal1 hgoal2

/-! ### Top-level corollaries about `collect_classes` -/

theorem identUniverse_spec (fs : FS) (root : String) :
    root ∈ identUniverse fs root ∧
      ∀ x, x ∈ allImports fs → x ∈ identUniverse fs root :=
  ⟨List.mem_cons_self _ _, fun _ h => List.mem_cons_of_mem _ h⟩

theorem collect_classes_mem_of_GReach {fs : FS} {sourceDir root w : String}
    (h : GReach fs sourceDir root w) :
    w ∈ keysOf (collect_classes fs sourceDir root).1 := by
  induction h with
  | refl hok =>
    exact collectFuel_self_mem (by omega) hok
  | step hr hedge ihr =>
    exact collectFuel_closed (identUniverse_spec fs root).2 _ root ([], [])
      (identUniverse_spec fs root).1 (le_refl _) _ _ ihr (by simp [keysOf]) hedge

theorem collect_classes_keys_GReach {fs : FS} {sourceDir root x : String}
    (h : x ∈ keysOf (collect_classes fs sourceDir root).1) :
    GReach fs sourceDir root x := by
  rcases collectFuel_keys_provenance _ root ([], []) x h with hin | hreach
  · simp [keysOf] at hin
  · exact hreach

theorem collect_classes_keys_nodup (fs : FS) (sourceDir root : String) :
    (keysOf (collect_classes fs sourceDir root).1).Nodup :=
  collectFuel_keys_nodup _ root ([], []) (by simp [keysOf])

theorem collect_classes_keys_ok {fs : FS} {sourceDir root x : String}
    (h : x ∈ keysOf (collect_classes fs sourceDir root).1) :
    okNode fs sourceDir x :=
  GReach_end_ok (collect_classes_keys_GReach h)

/-- The fueled walk stabilises: any fuel at least the canonical bound
computes `collect_classes`.  This is the termination statement for the
memoised recursion. -/
theorem collect_classes_stable {fs : FS} {sourceDir root : String} {f : Nat}
    (hf : countMissing (identUniverse fs root) [] + 1 ≤ f) :
    collectFuel fs sourceDir f root ([], []) = collect_classes fs sourceDir root :=
  collectFuel_stable (identUniverse_spec fs root).2 f
    (countMissing (identUniverse fs root) [] + 1) root ([], [])
    (identUniverse_spec fs root).1 hf (le_refl _)

/-! ### Example file systems used by the witnesses -/

/-- Acyclic example: `a.C` imports `a.D` (project-local, matching) and
`java.util.List` (reserved prefix). -/
def exFSAcyclic : FS :=
  [("src/a/C.java", FileOutcome.readable
      ("package a;\nimport a.D;\nimport java.util.List;\npublic class C \x7b \x7d\n")),
   ("src/a/D.java", FileOutcome.readable
      ("package a;\npublic class D \x7b \x7d\n"))]

/-- Cyclic example: `b.A` imports itself and `b.B`; `b.B` imports `b.A`. -/
def exFSCyclic : FS :=
  [("src/b/A.java", FileOutcome.readable
      ("package b;\nimport b.A;\nimport b.B;\npublic class A \x7b \x7d\n")),
   ("src/b/B.java", FileOutcome.readable
      ("package b;\nimport b.A;\npublic class B \x7b \x7d\n"))]

/-! ### Claim C1 -/

/-- C1: for every import graph in which every project-local identifier
reachable from the root `R` resolves to an existing file whose declared
primary class name matches the identifier's last segment,
`collect_classes(R, sourceRoot, {})` returns a map whose key set is exactly
the set of project-local identifiers reachable from `R` via project-local
imports, with each such identifier present exactly once.  (The claim
assumes acyclicity; the theorem holds for arbitrary graphs, which subsumes
the acyclic case.) -/
theorem claim_C1 (fs : FS) (sourceDir root : String)
    (H : ∀ v, RawReach fs sourceDir root v → okNode fs sourceDir v) :
    (∀ v, v ∈ keysOf (collect_classes fs sourceDir root).1 ↔
      RawReach fs sourceDir root v) ∧
      (keysOf (collect_classes fs sourceDir root).1).Nodup := by
  refine ⟨fun v => ⟨?_, ?_⟩, collect_classes_keys_nodup fs sourceDir root⟩
  · intro h
    exact GReach_to_RawReach (collect_classes_keys_GReach h)
  · intro h
    exact collect_classes_mem_of_GReach (RawReach_to_GReach H h)

theorem claim_C1_witness :
    "a.D" ∈ keysOf (collect_classes exFSAcyclic ("src") ("a.C")).1 ∧
      (keysOf (collect_classes exFSAcyclic ("src") ("a.C")).1).Nodup := by
  have hchar : ∀ v, RawReach exFSAcyclic ("src") ("a.C") v → v = "a.C" ∨ v = "a.D" := by
    intro v h
    induction h with
    | refl _ => exact Or.inl rfl
    | step hr hedge ih =>
      rcases ih with rfl | rfl
      · have himp : _ ∈ importsOf exFSAcyclic ("src") ("a.C") := hedge.2.1
        have : importsOf exFSAcyclic ("src") ("a.C") = ["a.D", "java.util.List"] := by decide
        rw [this] at himp
        rcases List.mem_cons.mp himp with h1 | h1
        · exact Or.inr h1
        · have hv := List.mem_singleton.mp h1
          subst hv
          have := hedge.2.2.1
          rw [show skipImport ("java.util.List") = true by decide] at this
          simp at this
      · have himp : _ ∈ importsOf exFSAcyclic ("src") ("a.D") := hedge.2.1
        rw [show importsOf exFSAcyclic ("src") ("a.D") = [] by decide] at himp
        simp at himp
  have H : ∀ v, RawReach exFSAcyclic ("src") ("a.C") v → okNode exFSAcyclic ("src") v := by
    intro v h
    rcases hchar v h with rfl | rfl
    · exact by decide
    · exact by decide
  have h := claim_C1 exFSAcyclic ("src") ("a.C") H
  refine ⟨(h.1 ("a.D")).mpr ?_, h.2⟩
  refine RawReach.step (RawReach.refl (by decide)) ?_
  refine ⟨by decide, ?_, by decide, by decide⟩
  rw [show importsOf exFSAcyclic ("src") ("a.C") = ["a.D", "java.util.List"] by decide]
  exact List.mem_cons_self _ _

/-! ### Claim C2 -/

/-- C2: for every finite file set, `collect_classes` terminates even when
the project-local import graph contains cycles (self-imports, mutual
recursion): the fueled recursion stabilises at the canonical finite bound,
and every effectively reachable node — in particular every node on a
reachable cycle — appears exactly once in the resulting map. -/
theorem claim_C2 (fs : FS) (sourceDir root : String) :
    (∀ f, countMissing (identUniverse fs root) [] + 1 ≤ f →
      collectFuel fs sourceDir f root ([], []) = collect_classes fs sourceDir root) ∧
    (∀ v, GReach fs sourceDir root v →
      (keysOf (collect_classes fs sourceDir root).1).count v = 1) := by
  constructor
  · intro f hf
    exact collect_classes_stable hf
  · intro v hv
    exact List.count_eq_one_of_mem (collect_classes_keys_nodup fs sourceDir root)
      (collect_classes_mem_of_GReach hv)

theorem claim_C2_witness :
    (collectFuel exFSCyclic ("src")
        (countMissing (identUniverse exFSCyclic ("b.A")) [] + 6) ("b.A") ([], []) =
      collect_classes exFSCyclic ("src") ("b.A")) ∧
    (keysOf (collect_classes exFSCyclic ("src") ("b.A")).1).count ("b.A") = 1 ∧
    (keysOf (collect_classes exFSCyclic ("src") ("b.A")).1).count ("b.B") = 1 := by
  have h := claim_C2 exFSCyclic ("src") ("b.A")
  have hA : GReach exFSCyclic ("src") ("b.A") ("b.A") := GReach.refl (by decide)
  have hB : GReach exFSCyclic ("src") ("b.A") ("b.B") := by
    refine GReach.step hA ⟨?_, by decide, by decide⟩
    rw [show importsOf exFSCyclic ("src") ("b.A") = ["b.A", "b.B"] by decide]
    exact List.mem_cons_of_mem _ (List.mem_cons_self _ _)
  exact ⟨h.1 _ (by omega), h.2 _ hA, h.2 _ hB⟩

/-! ### Claim C4 -/

/-- Raw reachability along paths that avoid a given identifier. -/
inductive RawReachAvoid (fs : FS) (sourceDir avoid root : String) : String → Prop
  | refl : (fileAt fs sourceDir root).isSome = true → root ≠ avoid →
      RawReachAvoid fs sourceDir avoid root root
  | step {v w : String} : RawReachAvoid fs sourceDir avoid root v →
      RawEdge fs sourceDir v w → w ≠ avoid → RawReachAvoid fs sourceDir avoid root w

/-- An effective-reachability chain never passes through a non-insertable
identifier, so it avoids it. -/
theorem GReach_to_RawReachAvoid {fs : FS} {sourceDir root X w : String}
    (hbad : ¬ okNode fs sourceDir X) (h : GReach fs sourceDir root w) :
    RawReachAvoid fs sourceDir X root w := by
  induction h with
  | refl hok =>
    exact RawReachAvoid.refl hok.1 (fun he => hbad (he ▸ hok))
  | step hr hedge ih =>
    refine RawReachAvoid.step ih
      ⟨(GReach_end_ok hr).1, hedge.1, hedge.2.1, hedge.2.2.1⟩
      (fun he => hbad (he ▸ hedge.2.2))

/-- C4: for every identifier `X` whose file exists but whose parsed primary
class name differs from the last dot-separated segment of `X`:
(i) any call of `collect_classes` on a not-yet-collected `X` emits exactly a
`NameMismatch` warning and returns the map unchanged — `X`'s imports are
never iterated; (ii) `X` is never a key of the final map; (iii) every key of
the final map is raw-reachable from the root along a path avoiding `X`, so
descendants reachable only through `X` are absent; (iv) every identifier
effectively reachable without passing through `X` is still present. -/
theorem claim_C4 (fs : FS) (sourceDir root X : String)
    (hfile : (fileAt fs sourceDir X).isSome = true)
    (hbad : declaredOf fs sourceDir X ≠ some (lastSegment X)) :
    (∀ (fuel : Nat) (st : CState), (lookupA st.1 X).isSome = false →
      collectFuel fs sourceDir (fuel + 1) X st =
        (st.1, st.2 ++ (parseJavaFile (resolvePath sourceDir X)
          ((fileAt fs sourceDir X).get hfile)).2 ++ [Diag.nameMismatch X])) ∧
    X ∉ keysOf (collect_classes fs sourceDir root).1 ∧
    (∀ w, w ∈ keysOf (collect_classes fs sourceDir root).1 →
      RawReachAvoid fs sourceDir X root w) ∧
    (∀ w, GReach fs sourceDir root w →
      w ∈ keysOf (collect_classes fs sourceDir root).1) := by
  have hbadok : ¬ okNode fs sourceDir X := fun hok => hbad hok.2
  obtain ⟨o, hfs⟩ := Option.isSome_iff_exists.mp hfile
  have hget : (fileAt fs sourceDir X).get hfile = o := by
    unfold fileAt at hfs ⊢
    simp [hfs]
  have hname : (parseJavaFile (resolvePath sourceDir X) o).1.className ≠
      some (lastSegment X) := by
    rw [← declaredOf_eq_of_fsLookup hfs]
    exact hbad
  refine ⟨?_, ?_, ?_, ?_⟩
  · intro fuel st hmem
    rw [collectFuel_mismatch_eq fuel hmem hfs hname, hget]
  · intro hmemX
    exact hbadok (collect_classes_keys_ok hmemX)
  · intro w hw
    exact GReach_to_RawReachAvoid hbadok (collect_classes_keys_GReach hw)
  · intro w hw
    exact collect_classes_mem_of_GReach hw

/-- Mismatch example: `a.C` imports `a.D` and `a.E`; `a.D`'s file declares
`Delta` (mismatch) and imports `a.F`, reachable only through `a.D`. -/
def exFSMismatch : FS :=
  [("src/a/C.java", FileOutcome.readable
      ("import a.D;\nimport a.E;\npublic class C \x7b \x7d\n")),
   ("src/a/D.java", FileOutcome.readable
      ("import a.F;\npublic class Delta \x7b \x7d\n")),
   ("src/a/E.java", FileOutcome.readable
      ("public class E \x7b \x7d\n")),
   ("src/a/F.java", FileOutcome.readable
      ("public class F \x7b \x7d\n"))]

theorem claim_C4_witness :
    (collectFuel exFSMismatch ("src") 5 ("a.D") ([], [])).1 = [] ∧
    "a.D" ∉ keysOf (collect_classes exFSMismatch ("src") ("a.C")).1 ∧
    "a.E" ∈ keysOf (collect_classes exFSMismatch ("src") ("a.C")).1 := by
  have h := claim_C4 exFSMismatch ("src") ("a.C") ("a.D") (by decide) (by decide)
  refine ⟨?_, h.2.1, ?_⟩
  · rw [h.1 4 ([], []) (by decide)]
  · refine h.2.2.2 ("a.E") ?_
    refine GReach.step (GReach.refl (by decide)) ⟨?_, by decide, by decide⟩
    rw [show importsOf exFSMismatch ("src") ("a.C") = ["a.D", "a.E"] by decide]
    exact List.mem_cons_of_mem _ (List.mem_cons_self _ _)

/-! ### Claim C5 -/

/-- Reserved-prefix root whose file exists: the classifier would call it
external, yet it becomes a key. -/
def exFSJavaRoot : FS :=
  [("src/java/Foo.java", FileOutcome.readable ("public class Foo \x7b \x7d\n"))]

/-- C5 counterexample: the identifier `java.Foo` carries a reserved
platform prefix (the classifier marks it external), yet as the root of the
run, with an existing matching file, it appears as a key of the resulting
map.  This refutes the claim's "including when such an identifier is the
root of the run". -/
theorem claim_C5_counterexample :
    skipImport ("java.Foo") = true ∧
      "java.Foo" ∈ keysOf (collect_classes exFSJavaRoot ("src") ("java.Foo")).1 := by
  decide

/-- C5 amended: every key of the resulting map has an existing candidate
file, and every key other than the root passes the reserved-prefix test;
hence an identifier classified external never appears as a key unless it
is the root itself carrying a reserved prefix while its file exists and
matches. -/
theorem claim_C5_amended (fs : FS) (sourceDir root x : String)
    (h : x ∈ keysOf (collect_classes fs sourceDir root).1) :
    (fileAt fs sourceDir x).isSome = true ∧ (x = root ∨ skipImport x = false) := by
  have hok := collect_classes_keys_ok h
  have hc := GReach_cases_end (collect_classes_keys_GReach h)
  exact ⟨hok.1, hc.imp id (fun hp => hp.1)⟩

theorem claim_C5_amended_witness :
    (fileAt exFSAcyclic ("src") ("a.D")).isSome = true ∧
      ("a.D" = "a.C" ∨ skipImport ("a.D") = false) :=
  claim_C5_amended exFSAcyclic ("src") ("a.C") ("a.D") (by decide)

/-! ### Claim C6 -/

/-- C6: a `MissingFile` diagnostic is emitted only for the root itself when
the root's candidate file does not exist; a `NameMismatch` diagnostic is
emitted only for an identifier whose candidate file exists and whose
declared name mismatches, and that identifier is the root or an unskipped
import.  Consequently an import rejected at the classification stage
(reserved prefix, or missing candidate file) never generates a
`MissingFile` or `NameMismatch` diagnostic. -/
theorem claim_C6 (fs : FS) (sourceDir root : String) :
    (∀ x, Diag.missingFile x ∈ (collect_classes fs sourceDir root).2 →
      x = root ∧ fsLookup fs (resolvePath sourceDir x) = none) ∧
    (∀ x, Diag.nameMismatch x ∈ (collect_classes fs sourceDir root).2 →
      (fileAt fs sourceDir x).isSome = true ∧
        declaredOf fs sourceDir x ≠ some (lastSegment x) ∧
        (x = root ∨ skipImport x = false)) := by
  constructor
  · intro x hx
    rcases collectFuel_missingFile_provenance _ root ([], []) x hx with h | h
    · simp at h
    · exact ⟨h.1, by rw [h.1]; exact h.2⟩
  · intro x hx
    rcases collectFuel_nameMismatch_provenance _ root ([], []) x hx with h | h
    · simp at h
    · exact h

theorem claim_C6_witness :
    fsLookup ([] : FS) (resolvePath ("src") ("a.B")) = none ∧
      declaredOf exFSMismatch ("src") ("a.D") ≠ some (lastSegment ("a.D")) := by
  constructor
  · exact ((claim_C6 ([] : FS) ("src") ("a.B")).1 ("a.B") (by decide)).2
  · exact ((claim_C6 exFSMismatch ("src") ("a.C")).2 ("a.D") (by decide)).2.1

/-! ### Claim C3 -/

/-- The root's candidate file exists but cannot be read. -/
def exFSUnreadable : FS :=
  [("src/a/B.java", FileOutcome.unreadable)]

/-- C3 counterexample: against the claim, an identifier whose file exists
but is unreadable is NOT recorded in the map.  Extraction does soft-fail
with all fields empty, but the collector then takes the name-mismatch
branch (`None != 'B'`) and drops the identifier: the resulting map is
empty, with a read-error line and a mismatch warning emitted. -/
theorem claim_C3_counterexample :
    fsLookup exFSUnreadable (resolvePath ("src") ("a.B")) = some FileOutcome.unreadable ∧
    parseJavaFile ("src/a/B.java") FileOutcome.unreadable =
      (⟨none, [], none, ""⟩, [Diag.readError ("src/a/B.java")]) ∧
    "a.B" ∉ keysOf (collect_classes exFSUnreadable ("src") ("a.B")).1 ∧
    (collect_classes exFSUnreadable ("src") ("a.B")).1 = [] := by
  decide

/-- C3 amended: for an identifier whose candidate file exists but is
unreadable, extraction soft-fails with every field empty/absent (no
exception escapes), and the collector then drops the identifier through
the name-mismatch branch: any call on the not-yet-collected identifier
returns the map unchanged, appending a read-error line and a
`NameMismatch` warning; the identifier is never a key of any run's
result. -/
theorem claim_C3_amended (fs : FS) (sourceDir u : String)
    (hfs : fsLookup fs (resolvePath sourceDir u) = some FileOutcome.unreadable) :
    parseJavaFile (resolvePath sourceDir u) FileOutcome.unreadable =
      (⟨none, [], none, ""⟩, [Diag.readError (resolvePath sourceDir u)]) ∧
    (∀ (fuel : Nat) (st : CState), (lookupA st.1 u).isSome = false →
      collectFuel fs sourceDir (fuel + 1) u st =
        (st.1, st.2 ++ [Diag.readError (resolvePath sourceDir u), Diag.nameMismatch u])) ∧
    (∀ root, u ∉ keysOf (collect_classes fs sourceDir root).1) := by
  have hname : (parseJavaFile (resolvePath sourceDir u) FileOutcome.unreadable).1.className ≠
      some (lastSegment u) := by
    simp [parseJavaFile]
  refine ⟨rfl, ?_, ?_⟩
  · intro fuel st hmem
    rw [collectFuel_mismatch_eq fuel hmem hfs hname]
    simp [parseJavaFile]
  · intro root hk
    obtain ⟨h1, h2⟩ := collect_classes_keys_ok hk
    have : declaredOf fs sourceDir u = none := by
      rw [declaredOf_eq_of_fsLookup hfs]
      rfl
    rw [this] at h2
    exact absurd h2 (by simp)

theorem claim_C3_amended_witness :
    collectFuel exFSUnreadable ("src") 3 ("a.B") ([], []) =
      ([], [Diag.readError ("src/a/B.java"), Diag.nameMismatch ("a.B")]) ∧
    "a.B" ∉ keysOf (collect_classes exFSUnreadable ("src") ("x.Y")).1 := by
  have h := claim_C3_amended exFSUnreadable ("src") ("a.B") (by decide)
  exact ⟨h.2.1 2 ([], []) (by decide), h.2.2 ("x.Y")⟩

/-! ### Split/join round trip for the parent-section rendering -/

theorem splitCh_ne_nil (sep : Char) (l : List Char) : splitCh sep l ≠ [] := by
  cases l with
  | nil => simp [splitCh]
  | cons c cs =>
    by_cases hc : c = sep
    · simp [splitCh, hc]
    · simp only [splitCh, if_neg hc]
      cases h : splitCh sep cs with
      | nil => simp
      | cons g gs => simp

theorem splitCh_cons_sep (sep : Char) (cs : List Char) :
    splitCh sep (sep :: cs) = [] :: splitCh sep cs := by
  simp [splitCh]

theorem splitCh_cons_ne (sep c : Char) (cs : List Char) {g : List Char}
    {gs : List (List Char)} (hc : ¬c = sep) (h : splitCh sep cs = g :: gs) :
    splitCh sep (c :: cs) = (c :: g) :: gs := by
  simp [splitCh, hc, h]

theorem splitCh_join_newline (l : List Char) :
    (((splitCh '\n' l).map (fun g => g ++ ['\n'])).flatten) = l ++ ['\n'] := by
  induction l with
  | nil => rfl
  | cons c cs ih =>
    by_cases hc : c = '\n'
    · subst hc
      rw [splitCh_cons_sep, List.map_cons, List.flatten_cons, ih]
      rfl
    · obtain ⟨g, gs, h⟩ : ∃ g gs, splitCh '\n' cs = g :: gs := by
        cases h : splitCh '\n' cs with
        | nil => exact absurd h (splitCh_ne_nil '\n' cs)
        | cons g gs => exact ⟨g, gs, rfl⟩
      rw [splitCh_cons_ne _ _ _ hc h]
      rw [h, List.map_cons, List.flatten_cons] at ih
      simp only [List.map_cons, List.flatten_cons, List.cons_append, List.append_assoc,
        List.nil_append] at ih ⊢
      simp [ih]

theorem concatStrings_parent_block (code : String) :
    concatStrings (((splitCh '\n' (pyStrip code).data).map
      (fun line => (⟨line⟩ : String) ++ ("\n")))) = pyStrip code ++ ("\n") := by
  apply String.ext
  show (((splitCh '\n' (pyStrip code).data).map
      (fun line => (⟨line⟩ : String) ++ ("\n"))).map String.data).flatten = _
  rw [List.map_map]
  have : (String.data ∘ fun line => (⟨line⟩ : String) ++ ("\n")) =
      fun g => g ++ ['\n'] := by
    funext g
    rfl
  rw [this, splitCh_join_newline]
  rfl

/-! ### Claim C8 -/

/-- C8: for every map containing the root identifier, the rendered output
places the root's (stripped) body first under the parent marker — looked
up by key, regardless of the root's position in insertion order — then
lists every remaining entry's body in the map's insertion order under the
imported marker, each followed by a blank line; when no other keys exist
it emits the literal no-imported-classes marker instead; the footer line
always ends the output. -/
theorem claim_C8 (m : List (String × String)) (r code : String)
    (h : lookupA m r = some code) :
    render m r =
      ("------------<") ++ r ++ (".class>----------") ++ ("\n") ++
      ("// Parent class\n") ++ pyStrip code ++ ("\n") ++
      (if (m.filter (fun kv => kv.1 ≠ r)).isEmpty then ("// No imported classes found.\n")
       else ("// Imported classes\n") ++
         concatStrings ((m.filter (fun kv => kv.1 ≠ r)).map
           (fun kv => kv.2 ++ ("\n") ++ ("\n")))) ++
      ("----------------------------------------\n") := by
  unfold render
  simp only [h]
  rw [concatStrings_parent_block]
  cases hemp : (m.filter (fun kv => kv.1 ≠ r)).isEmpty with
  | true => simp only [hemp, if_true, String.append_assoc]
  | false => simp only [hemp, Bool.false_eq_true, if_false, String.append_assoc]

/-- Example map whose root sits in the middle of the insertion order. -/
def exMapMid : List (String × String) :=
  [("x.A", "public class A \x7b \x7d"), ("r.R", "public class R \x7b \x7d"),
   ("y.B", "public class B \x7b \x7d")]

theorem claim_C8_witness :
    render exMapMid ("r.R") =
      ("------------<r.R.class>----------\n// Parent class\npublic class R \x7b \x7d\n") ++
      ("// Imported classes\npublic class A \x7b \x7d\n\npublic class B \x7b \x7d\n\n") ++
      ("----------------------------------------\n") := by
  rw [claim_C8 exMapMid ("r.R") ("public class R \x7b \x7d") (by decide)]
  rfl

/-! ### Claim C9 -/

/-- Map that does not contain the root identifier. -/
def exMapNoRoot : List (String × String) :=
  [("a.X", "BODYX")]

/-- `containsSub needle hay`: the character list `needle` occurs
contiguously inside `hay`. -/
def containsSub : List Char → List Char → Bool
  | needle, [] => strPrefixOf needle []
  | needle, c :: rest => strPrefixOf needle (c :: rest) || containsSub needle rest

/-- C9 counterexample: against the claim, when the root is not a key, the
renderer does NOT stop after the warning line: it still emits the
imported-classes section with every body, and the footer. -/
theorem claim_C9_counterexample :
    lookupA exMapNoRoot ("a.R") = none ∧
    containsSub ("// Imported classes").data (render exMapNoRoot ("a.R")).data = true ∧
    containsSub ("BODYX").data (render exMapNoRoot ("a.R")).data = true := by
  refine ⟨rfl, ?_, ?_⟩ <;> rfl

theorem filter_ne_of_lookupA_none {m : List (String × String)} {r : String}
    (h : lookupA m r = none) : m.filter (fun kv => kv.1 ≠ r) = m := by
  induction m with
  | nil => rfl
  | cons kv rest ih =>
    obtain ⟨k, v⟩ := kv
    by_cases hk : k = r
    · subst hk
      simp [lookupA] at h
    · simp only [lookupA, if_neg hk] at h
      simp only [List.filter_cons]
      rw [if_pos (by simpa using hk)]
      rw [ih h]

/-- C9 amended: for every map in which the root identifier is not a key,
the renderer emits the warning line in place of the parent body and then
still continues: it renders the imported-classes section over the whole
map (or the no-imported-classes marker when the map is empty) and the
footer line. -/
theorem claim_C9_amended (m : List (String × String)) (r : String)
    (h : lookupA m r = none) :
    render m r =
      ("------------<") ++ r ++ (".class>----------") ++ ("\n") ++
      ("Warning: Parent class \x27") ++ r ++ ("\x27 not found in collected classes.\n") ++
      (if m.isEmpty then ("// No imported classes found.\n")
       else ("// Imported classes\n") ++
         concatStrings (m.map (fun kv => kv.2 ++ ("\n") ++ ("\n")))) ++
      ("----------------------------------------\n") := by
  unfold render
  simp only [h, filter_ne_of_lookupA_none h]
  cases hemp : m.isEmpty with
  | true => simp only [hemp, if_true, String.append_assoc]
  | false => simp only [hemp, Bool.false_eq_true, if_false, String.append_assoc]

theorem claim_C9_amended_witness :
    render exMapNoRoot ("a.R") =
      ("------------<a.R.class>----------\n") ++
      ("Warning: Parent class \x27a.R\x27 not found in collected classes.\n") ++
      ("// Imported classes\nBODYX\n\n----------------------------------------\n") := by
  rw [claim_C9_amended exMapNoRoot ("a.R") (by decide)]
  rfl

/-! ### Claim C10 -/

theorem strPrefixOf_sub {p l : List Char} (h : strPrefixOf p l = true) :
    ∀ c, c ∈ p → c ∈ l := by
  induction p generalizing l with
  | nil => intro c hc; simp at hc
  | cons a as ih =>
    cases l with
    | nil => simp [strPrefixOf] at h
    | cons b bs =>
      simp only [strPrefixOf, Bool.and_eq_true, decide_eq_true_eq] at h
      intro c hc
      rcases List.mem_cons.mp hc with rfl | hc
      · rw [h.1]
        exact List.mem_cons_self _ _
      · exact List.mem_cons_of_mem _ (ih h.2 c hc)

theorem eatWordDot1_all {cs g r : List Char} (h : eatWordDot1 cs = some (g, r)) :
    g.all isWordDot = true := by
  cases cs with
  | nil => simp [eatWordDot1] at h
  | cons c cs =>
    by_cases hc : isWordDot c
    · simp only [eatWordDot1, if_pos hc] at h
      obtain ⟨hg, _⟩ := Prod.mk.injEq .. ▸ (Option.some.injEq _ _ ▸ h)
      subst hg
      simp only [List.all_cons, hc, Bool.true_and]
      exact List.all_takeWhile
    · simp [eatWordDot1, hc] at h

theorem importMatchAt_group_all {cs : List Char} {g : String} {r : List Char}
    (h : importMatchAt cs = some (g, r)) : g.data.all isWordDot = true := by
  unfold importMatchAt at h
  cases h1 : eatLit impChars (cs.dropWhile isPySpace) with
  | none => simp [h1] at h
  | some r1 =>
    simp only [h1] at h
    cases h2 : eatSpaces1 r1 with
    | none => simp [h2] at h
    | some p2 =>
      obtain ⟨s2, r2⟩ := p2
      simp only [h2] at h
      cases h3 : eatWordDot1 r2 with
      | none => simp [h3] at h
      | some p3 =>
        obtain ⟨g3, r3⟩ := p3
        simp only [h3] at h
        cases hr : r3 with
        | nil => simp [hr] at h
        | cons c rest =>
          simp only [hr] at h
          split at h
          · simp only [Option.some.injEq, Prod.mk.injEq] at h
            rw [← h.1]
            exact eatWordDot1_all h3
          · simp at h

theorem importScanAux_all {fuel : Nat} :
    ∀ (ls : Bool) (cs : List Char) (g : String),
      g ∈ importScanAux fuel ls cs → g.data.all isWordDot = true := by
  induction fuel with
  | zero =>
    intro ls cs g hg
    simp [importScanAux] at hg
  | succ fuel ih =>
    intro ls cs g hg
    cases cs with
    | nil => simp [importScanAux] at hg
    | cons c rest =>
      by_cases hls : ls = true
      · subst hls
        simp only [importScanAux] at hg
        cases hm : importMatchAt (c :: rest) with
        | none =>
          rw [hm] at hg
          exact ih _ _ g hg
        | some p =>
          rw [hm] at hg
          rcases List.mem_cons.mp hg with rfl | hg
          · exact importMatchAt_group_all hm
          · exact ih _ _ g hg
      · have : ls = false := by simpa using hls
        subst this
        simp only [importScanAux] at hg
        exact ih _ _ g hg

/-- C10: every element of the imports list returned by extraction consists
only of word characters and dots (so no space can occur in it), and
consequently no extracted import starts with `"static "`: the collector's
skip-branch test for a static prefix can never fire on an extracted
import.  A `import static ...;` line is never matched at all. -/
theorem claim_C10 (filePath : String) (o : FileOutcome) (imp : String)
    (h : imp ∈ (parseJavaFile filePath o).1.imports) :
    imp.data.all isWordDot = true ∧ pyStartsWith imp ("static ") = false := by
  have hall : imp.data.all isWordDot = true := by
    cases o with
    | unreadable => simp [parseJavaFile] at h
    | readable content =>
      simp only [parseJavaFile] at h
      exact importScanAux_all _ _ imp h
  refine ⟨hall, ?_⟩
  cases hpre : pyStartsWith imp ("static ") with
  | false => rfl
  | true =>
    have hsp : ' ' ∈ imp.data := by
      unfold pyStartsWith at hpre
      exact strPrefixOf_sub hpre ' ' (by decide)
    have := List.all_eq_true.mp hall ' ' hsp
    simp [isWordDot, isWordChar] at this

theorem claim_C10_witness :
    ("a.D" : String).data.all isWordDot = true ∧
      pyStartsWith ("a.D") ("static ") = false :=
  claim_C10 ("src/a/C.java") (FileOutcome.readable
    ("package a;\nimport a.D;\nimport java.util.List;\npublic class C \x7b \x7d\n"))
    ("a.D") (by decide)

/-! ### Claim C7: characterisation of the class-code extraction -/

theorem eatLit_spec : ∀ {lit cs r : List Char}, eatLit lit cs = some r → cs = lit ++ r := by
  intro lit
  induction lit with
  | nil =>
    intro cs r h
    simp only [eatLit, Option.some.injEq] at h
    simp [h]
  | cons l ls ih =>
    intro cs r h
    cases cs with
    | nil => simp [eatLit] at h
    | cons c cs' =>
      by_cases hc : c = l
      · simp only [eatLit, if_pos hc] at h
        subst hc
        simp [ih h]
      · simp [eatLit, hc] at h

theorem eatSpaces1_spec {cs s r : List Char} (h : eatSpaces1 cs = some (s, r)) :
    cs = s ++ r ∧ s ≠ [] ∧ s.all isPySpace = true := by
  cases cs with
  | nil => simp [eatSpaces1] at h
  | cons c cs' =>
    by_cases hc : isPySpace c = true
    · simp only [eatSpaces1, if_pos hc, Option.some.injEq, Prod.mk.injEq] at h
      obtain ⟨hs, hr⟩ := h
      subst hs
      subst hr
      refine ⟨?_, by simp, ?_⟩
      · simp [List.takeWhile_append_dropWhile]
      · simp only [List.all_cons, hc, Bool.true_and]
        exact List.all_takeWhile
    · simp [eatSpaces1, hc] at h

theorem eatWord1_spec {cs w r : List Char} (h : eatWord1 cs = some (w, r)) :
    cs = w ++ r ∧ w ≠ [] ∧ w.all isWordChar = true := by
  cases cs with
  | nil => simp [eatWord1] at h
  | cons c cs' =>
    by_cases hc : isWordChar c = true
    · simp only [eatWord1, if_pos hc, Option.some.injEq, Prod.mk.injEq] at h
      obtain ⟨hs, hr⟩ := h
      subst hs
      subst hr
      refine ⟨?_, by simp, ?_⟩
      · simp [List.takeWhile_append_dropWhile]
      · simp only [List.all_cons, hc, Bool.true_and]
        exact List.all_takeWhile
    · simp [eatWord1, hc] at h

theorem pubClassHeadMatch_spec {cs hd rest : List Char}
    (h : pubClassHeadMatch cs = some (hd, rest)) :
    cs = hd ++ rest ∧
      ∃ s1 s2 w, hd = pubChars ++ s1 ++ clsChars ++ s2 ++ w ∧
        s1 ≠ [] ∧ s1.all isPySpace = true ∧ s2 ≠ [] ∧ s2.all isPySpace = true ∧
        w ≠ [] ∧ w.all isWordChar = true := by
  unfold pubClassHeadMatch at h
  cases h1 : eatLit pubChars cs with
  | none => simp [h1] at h
  | some r1 =>
    simp only [h1] at h
    cases h2 : eatSpaces1 r1 with
    | none => simp [h2] at h
    | some p2 =>
      obtain ⟨s1, r2⟩ := p2
      simp only [h2] at h
      cases h3 : eatLit clsChars r2 with
      | none => simp [h3] at h
      | some r3 =>
        simp only [h3] at h
        cases h4 : eatSpaces1 r3 with
        | none => simp [h4] at h
        | some p4 =>
          obtain ⟨s2, r4⟩ := p4
          simp only [h4] at h
          cases h5 : eatWord1 r4 with
          | none => simp [h5] at h
          | some p5 =>
            obtain ⟨w, r5⟩ := p5
            simp only [h5, Option.some.injEq, Prod.mk.injEq] at h
            obtain ⟨hhd, hrest⟩ := h
            subst hhd
            subst hrest
            obtain ⟨e1, e1ne, e1sp⟩ := eatSpaces1_spec h2
            obtain ⟨e2, e2ne, e2sp⟩ := eatSpaces1_spec h4
            obtain ⟨e3, e3ne, e3w⟩ := eatWord1_spec h5
            refine ⟨?_, s1, s2, w, rfl, e1ne, e1sp, e2ne, e2sp, e3ne, e3w⟩
            rw [eatLit_spec h1, e1, eatLit_spec h3, e2, e3]
            simp [List.append_assoc]

theorem lazyBody_spec (cs : List Char) :
    cs = (lazyBody cs).1 ++ (lazyBody cs).2 ∧
    ((lazyBody cs).2 = [] ∨ pubClassLookahead (lazyBody cs).2 = true) ∧
    (∀ t1 t2, (lazyBody cs).1 = t1 ++ t2 → t2 ≠ [] →
      pubClassLookahead (t2 ++ (lazyBody cs).2) = false) := by
  induction cs with
  | nil =>
    refine ⟨rfl, Or.inl rfl, ?_⟩
    intro t1 t2 h ht
    exact absurd (List.append_eq_nil.mp h.symm).2 ht
  | cons c cs ih =>
    by_cases hla : pubClassLookahead (c :: cs) = true
    · simp only [lazyBody, if_pos hla]
      refine ⟨rfl, Or.inr hla, ?_⟩
      intro t1 t2 h ht
      exact absurd (List.append_eq_nil.mp h.symm).2 ht
    · simp only [lazyBody, if_neg hla]
      obtain ⟨ihdec, ihbound, ihmin⟩ := ih
      refine ⟨?_, ihbound, ?_⟩
      · rw [List.cons_append, ← ihdec]
      · intro t1 t2 h ht
        cases t1 with
        | nil =>
          simp only [List.nil_append] at h
          subst h
          rw [List.cons_append, ← ihdec]
          exact eq_false_of_ne_true hla
        | cons a t1' =>
          simp only [List.cons_append, List.cons.injEq] at h
          exact ihmin t1' t2 h.2 ht

theorem classCodeAt_spec {cs b r : List Char} (h : classCodeAt cs = some (b, r)) :
    cs = b ++ r ∧
    (∃ hd tail, b = hd ++ tail ∧
      (∃ s1 s2 w, hd = pubChars ++ s1 ++ clsChars ++ s2 ++ w ∧
        s1 ≠ [] ∧ s1.all isPySpace = true ∧ s2 ≠ [] ∧ s2.all isPySpace = true ∧
        w ≠ [] ∧ w.all isWordChar = true) ∧
      (∀ t1 t2, tail = t1 ++ t2 → t2 ≠ [] → pubClassLookahead (t2 ++ r) = false)) ∧
    (r = [] ∨ pubClassLookahead r = true) := by
  unfold classCodeAt at h
  cases hm : pubClassHeadMatch cs with
  | none => simp [hm] at h
  | some p =>
    obtain ⟨hd, rest⟩ := p
    simp only [hm, Option.some.injEq, Prod.mk.injEq] at h
    obtain ⟨hb, hr⟩ := h
    obtain ⟨hdec, hshape⟩ := pubClassHeadMatch_spec hm
    obtain ⟨ldec, lbound, lmin⟩ := lazyBody_spec rest
    subst hb
    subst hr
    refine ⟨?_, ⟨hd, (lazyBody rest).1, rfl, hshape, lmin⟩, lbound⟩
    rw [hdec]
    conv_lhs => rw [ldec]
    rw [List.append_assoc]

theorem classCodeAt_none_headMatch {cs : List Char} (h : classCodeAt cs = none) :
    pubClassHeadMatch cs = none := by
  unfold classCodeAt at h
  cases hm : pubClassHeadMatch cs with
  | none => rfl
  | some p => simp [hm] at h

theorem classCodeScan_spec : ∀ {cs b r : List Char}, classCodeScan cs = some (b, r) →
    ∃ pre, cs = pre ++ b ++ r ∧
      (∀ k, k < pre.length → pubClassHeadMatch (cs.drop k) = none) ∧
      classCodeAt (b ++ r) = some (b, r) := by
  intro cs
  induction cs with
  | nil =>
    intro b r h
    simp [classCodeScan] at h
  | cons c cs ih =>
    intro b r h
    simp only [classCodeScan] at h
    cases hat : classCodeAt (c :: cs) with
    | some p =>
      simp only [hat, Option.some.injEq] at h
      subst h
      have hdec := (classCodeAt_spec hat).1
      refine ⟨[], by simpa using hdec, ?_, by rw [← hdec]; exact hat⟩
      intro k hk
      simp at hk
    | none =>
      simp only [hat] at h
      obtain ⟨pre, hdec, hfail, hat2⟩ := ih h
      refine ⟨c :: pre, by simp [hdec], ?_, hat2⟩
      intro k hk
      cases k with
      | zero =>
        simpa using classCodeAt_none_headMatch hat
      | succ k =>
        simp only [List.drop_succ_cons]
        exact hfail k (by simpa using hk)

/-- Modelled from the spec (claim C7 wording, §4.2 "Body"): the body would
begin at the first `public class` declaration and extend to the start of
the next TOP-LEVEL public-type declaration or to end-of-file.  "Top-level"
is modelled as brace depth zero relative to the declaration start.  This
definition follows the spec's words and exists only to be compared against
the source-derived extraction. -/
def specScanEnd : Nat → List Char → List Char × List Char
  | _, [] => ([], [])
  | d, c :: cs =>
    if d = 0 ∧ pubClassLookahead (c :: cs) = true then ([], c :: cs)
    else
      let d' := if c = '\x7b' then d + 1 else if c = '\x7d' then d - 1 else d
      let p := specScanEnd d' cs
      (c :: p.1, p.2)

/-- Modelled from the spec (claim C7 wording): body from the first
declaration to the next top-level declaration or end-of-file. -/
def specBodyC7 (s : String) : Option String :=
  (specBodyScanC7 s.data).map (fun l => (⟨l⟩ : String))
where
  specBodyAtC7 (cs : List Char) : Option (List Char) :=
    match pubClassHeadMatch cs with
    | none => none
    | some (hd, rest) => some (hd ++ (specScanEnd 0 rest).1)
  specBodyScanC7 : List Char → Option (List Char)
    | [] => none
    | c :: cs =>
      match specBodyAtC7 (c :: cs) with
      | some b => some b
      | none => specBodyScanC7 cs

/-- A file whose only nested (non-top-level) `public class` occurs inside
the braces of the first declaration. -/
def c7nested : String := "public class A \x7b public class B \x7b \x7d \x7d"

/-- C7 counterexample: on a file with a nested `public class`, the claim
predicts the body extends to end-of-file (there is no second TOP-LEVEL
declaration), but the extraction stops at the nested textual occurrence of
`public class`: the source's lookahead does not check nesting depth. -/
theorem claim_C7_counterexample :
    specBodyC7 c7nested = some c7nested ∧
    (parseJavaFile ("f") (FileOutcome.readable c7nested)).1.classCode =
      ("public class A \x7b ") ∧
    some ((parseJavaFile ("f") (FileOutcome.readable c7nested)).1.classCode) ≠
      specBodyC7 c7nested := by
  refine ⟨rfl, rfl, by decide⟩

/-- C7 amended: for every input text on which the class-code pattern
matches, the extracted body is a contiguous span of the text that starts
with the earliest textual match of `public\s+class\s+\w+` (no earlier
position matches, regardless of nesting), and extends to the start of the
next textual occurrence of `public\s+class` — at ANY nesting depth, not
only top-level — or to end-of-file; only this first span is exposed. -/
theorem claim_C7_amended (filePath content : String) (b : String)
    (h : findClassCode content = some b) :
    (parseJavaFile filePath (FileOutcome.readable content)).1.classCode = b ∧
    ∃ pre post, content.data = pre ++ b.data ++ post ∧
      (∀ k, k < pre.length → pubClassHeadMatch (content.data.drop k) = none) ∧
      (∃ hd tail, b.data = hd ++ tail ∧
        (∃ s1 s2 w, hd = pubChars ++ s1 ++ clsChars ++ s2 ++ w ∧
          s1 ≠ [] ∧ s1.all isPySpace = true ∧ s2 ≠ [] ∧ s2.all isPySpace = true ∧
          w ≠ [] ∧ w.all isWordChar = true) ∧
        (∀ t1 t2, tail = t1 ++ t2 → t2 ≠ [] →
          pubClassLookahead (t2 ++ post) = false)) ∧
      (post = [] ∨ pubClassLookahead post = true) := by
  constructor
  · simp [parseJavaFile, h]
  · unfold findClassCode at h
    cases hscan : classCodeScan content.data with
    | none => simp [hscan] at h
    | some p =>
      obtain ⟨b0, r⟩ := p
      rw [hscan] at h
      simp only [Option.map] at h
      injection h with hb
      subst hb
      obtain ⟨pre, hdec, hfail, hat⟩ := classCodeScan_spec hscan
      obtain ⟨_, hshape, hbound⟩ := classCodeAt_spec hat
      exact ⟨pre, r, hdec, hfail, hshape, hbound⟩

theorem claim_C7_amended_witness :
    (parseJavaFile ("f") (FileOutcome.readable c7nested)).1.classCode =
      ("public class A \x7b ") ∧
    ∃ pre post, c7nested.data = pre ++ ("public class A \x7b " : String).data ++ post ∧
      (∀ k, k < pre.length → pubClassHeadMatch (c7nested.data.drop k) = none) ∧
      (∃ hd tail, ("public class A \x7b " : String).data = hd ++ tail ∧
        (∃ s1 s2 w, hd = pubChars ++ s1 ++ clsChars ++ s2 ++ w ∧
          s1 ≠ [] ∧ s1.all isPySpace = true ∧ s2 ≠ [] ∧ s2.all isPySpace = true ∧
          w ≠ [] ∧ w.all isWordChar = true) ∧
        (∀ t1 t2, tail = t1 ++ t2 → t2 ≠ [] →
          pubClassLookahead (t2 ++ post) = false)) ∧
      (post = [] ∨ pubClassLookahead post = true) :=
  claim_C7_amended ("f") c7nested ("public class A \x7b ") (by rfl)

end JavaCollect
